import Mathlib

/-!
Verification development for `imdb2json.py`: a shallow embedding of the
external sort-merge-group engine (`roundrobin`, `rec_sorted`, `do_convert`)
and of the compound-key classifier (`TID_PAT` / `construct_title`), together
with proofs of the specified properties.

Conventions of the embedding:
* JSON-representable values are modelled by the inductive type `Val`.
* Python dicts (which preserve insertion order) are modelled by association
  lists with `dictGet` / `dictSet` (update keeps position, fresh keys append).
* The fallible fold of `do_convert` (`lst.append` raises `AttributeError`
  when the current field value is neither absent, `None`, nor a list) is
  modelled with `Option`.
* Python's regex matching of `TID_PAT` is embedded as a specialised
  backtracking matcher that follows the pattern's structure literally,
  with Python's greedy/lazy quantifier order made explicit.
-/

/-- JSON-representable values produced by the converter. -/
inductive Val where
  | null : Val
  | bool : Bool → Val
  | int : Int → Val
  | str : String → Val
  | arr : List Val → Val
  | obj : List (String × Val) → Val

/-- A record under construction: a Python dict from field names to values,
insertion order preserved. -/
abbrev Rec := List (String × Val)

/-- Python `rec.get(key)`: value of the first binding of `f`, if any. -/
def dictGet : Rec → String → Option Val
  | [], _ => none
  | (k, v) :: r, f => if k = f then some v else dictGet r f

/-- Python `rec[key] = value`: replace in place if present, else append. -/
def dictSet : Rec → String → Val → Rec
  | [], f, v => [(f, v)]
  | (k, w) :: r, f, v => if k = f then (k, v) :: r else (k, w) :: dictSet r f v

/-- `STORE, APPEND = 0, 1` in the source. -/
def STORE : Nat := 0

/-- `STORE, APPEND = 0, 1` in the source. -/
def APPEND : Nat := 1

/-- An update tuple `(id, mix, key, value)` as yielded by the parsers. -/
abbrev Tup := String × Nat × String × Val

/-- The grouping key of an update tuple (`lambda x: x[0]` in the source). -/
def tKey (t : Tup) : String := t.1

def tMix (t : Tup) : Nat := t.2.1

def tField (t : Tup) : String := t.2.2.1

def tVal (t : Tup) : Val := t.2.2.2

/-- One iteration of the folding loop of `do_convert`:
`STORE` overwrites `rec[key]`; `APPEND` appends to `rec[key]`, creating a
fresh list when `rec.get(key)` is `None` (absent or stored `null`), and
failing (Python `AttributeError`) when the present value is not a list. -/
def applyTuple (rec : Rec) (t : Tup) : Option Rec :=
  if tMix t = STORE then some (dictSet rec (tField t) (tVal t))
  else if tMix t = APPEND then
    match dictGet rec (tField t) with
    | none => some (dictSet rec (tField t) (Val.arr [tVal t]))
    | some Val.null => some (dictSet rec (tField t) (Val.arr [tVal t]))
    | some (Val.arr l) => some (dictSet rec (tField t) (Val.arr (l ++ [tVal t])))
    | some _ => none
  else some rec

/-! ## The key classifier: `TID_PAT` and `construct_title` -/

/-- The opening brace character, `'\x7b'`. -/
def lbrace : Char := Char.ofNat 123

/-- The closing brace character, `'\x7d'`. -/
def rbrace : Char := Char.ofNat 125

/-- Python `\s` (Unicode whitespace) on a single character. -/
def pySpace (c : Char) : Bool :=
  let n := c.toNat
  decide (n = 32 ∨ (9 ≤ n ∧ n ≤ 13) ∨ (28 ≤ n ∧ n ≤ 31) ∨ n = 133 ∨ n = 160 ∨
    n = 5760 ∨ (8192 ≤ n ∧ n ≤ 8202) ∨ n = 8232 ∨ n = 8233 ∨ n = 8239 ∨
    n = 8287 ∨ n = 12288)

/-- Python `\d` restricted to the latin‑1 range the input is decoded from. -/
def pyDigit (c : Char) : Bool := decide ('0' ≤ c ∧ c ≤ '9')

/-- One character of the parenthesized year-or-placeholder token
`[?\d/IVLX]`. -/
def yearChar (c : Char) : Bool :=
  c = '?' || pyDigit c || c = '/' || c = 'I' || c = 'V' || c = 'L' || c = 'X'

/-- Python `int` on a captured string of decimal digits. -/
def digitsToNat (l : List Char) : Nat :=
  l.foldl (fun n c => 10 * n + (c.toNat - 48)) 0

/-- Strip an exact literal from the front of the input, or fail. -/
def dropLit : List Char → List Char → Option (List Char)
  | [], l => some l
  | _ :: _, [] => none
  | c :: cs, d :: ds => if c = d then dropLit cs ds else none

/-- The literal `{{SUSPENDED}}`. -/
def suspLit : List Char :=
  lbrace :: lbrace :: "SUSPENDED".data ++ [rbrace, rbrace]

/-- Python `$` (no `MULTILINE`): end of input or just before a final
newline. -/
def dollarEnd (l : List Char) : Bool := l = [] || l = ['\n']

/-- Match `(?P<suspended>\s+\{\{SUSPENDED\}\})?$`, returning the value of
the `suspended` group.  The optional group is greedy: the present
alternative is tried first, then the absent one. -/
def matchSusp (l : List Char) : Option Bool :=
  let present : Option Bool :=
    let s := l.span pySpace
    if s.1 = [] then none
    else
      match dropLit suspLit s.2 with
      | some r2 => if dollarEnd r2 then some true else none
      | none => none
  match present with
  | some b => some b
  | none => if dollarEnd l then some false else none

/-- Captures of the episode-numbering alternation inside the brace block:
either `(#season.episode)` or `(yyyy-mm-dd)` or neither (never both). -/
inductive EpiNum where
  | nonum : EpiNum
  | se (season episode : List Char) : EpiNum
  | ymd (yr mon day : List Char) : EpiNum

/-- The named groups of a successful `TID_PAT` match.  A group that did not
participate in the match is `none` / `false`, mirroring `m.group(...)`. -/
structure TidGroups where
  series : Option (List Char)
  epi : Bool
  epi_title : Option (List Char)
  epinum : EpiNum
  non_series : Option (List Char)
  tv : Bool
  video : Bool
  videogame : Bool
  suspended : Bool

/-- `\}` then the suspended tail. -/
def closeBrace (l : List Char) : Option Bool :=
  match l with
  | c :: r => if c = rbrace then matchSusp r else none
  | [] => none

/-- Match `\s*\([#](?P<season>\d+)\.(?P<episode>\d+)\)`, returning the two
digit captures and the rest of the input. -/
def alt1 (l : List Char) : Option (List Char × List Char × List Char) :=
  let r1 := (l.span pySpace).2
  match r1 with
  | '(' :: '#' :: r2 =>
    let s := r2.span pyDigit
    if s.1 = [] then none
    else
      match s.2 with
      | '.' :: r4 =>
        let e := r4.span pyDigit
        if e.1 = [] then none
        else
          match e.2 with
          | ')' :: r6 => some (s.1, e.1, r6)
          | _ => none
      | _ => none
  | _ => none

/-- Take exactly `n` decimal digits from the front. -/
def exactDigits : Nat → List Char → Option (List Char × List Char)
  | 0, l => some ([], l)
  | _ + 1, [] => none
  | n + 1, c :: r =>
    if pyDigit c then
      match exactDigits n r with
      | some (ds, rest) => some (c :: ds, rest)
      | none => none
    else none

/-- Match `\s*\((?P<epi_yr>\d{4})-(?P<epi_mon>\d{2})-(?P<epi_day>\d{2})\)`. -/
def alt2 (l : List Char) : Option (List Char × List Char × List Char × List Char) :=
  let r1 := (l.span pySpace).2
  match r1 with
  | '(' :: r2 =>
    match exactDigits 4 r2 with
    | some (y, '-' :: r3) =>
      match exactDigits 2 r3 with
      | some (mo, '-' :: r4) =>
        match exactDigits 2 r4 with
        | some (d, ')' :: r5) => some (y, mo, d, r5)
        | _ => none
      | _ => none
    | _ => none
  | _ => none

/-- After the episode title (or at the start of the brace content when the
title is absent): the optional numbering alternation, then `\}` and the
suspended tail.  Backtracking order is Python's: `(#s.e)` first, then the
air date, then the absent alternative. -/
def epiAfterTitle (l : List Char) : Option (EpiNum × Bool) :=
  let tNone : Option (EpiNum × Bool) :=
    match closeBrace l with
    | some s => some (EpiNum.nonum, s)
    | none => none
  let t2 : Option (EpiNum × Bool) :=
    match alt2 l with
    | some (y, mo, d, r) =>
      match closeBrace r with
      | some susp => some (EpiNum.ymd y mo d, susp)
      | none => tNone
    | none => tNone
  match alt1 l with
  | some (s, e, r) =>
    match closeBrace r with
    | some susp => some (EpiNum.se s e, susp)
    | none => t2
  | none => t2

/-- The lazy search for `(?P<epi_title>.+?)?`: candidate titles are tried
shortest first (each added character must be matched by `.`, i.e. must not
be a newline); the whole continuation is retried for each candidate. -/
def epiSearchAux (title : List Char) (rest : List Char) :
    Option (Option (List Char) × EpiNum × Bool) :=
  match epiAfterTitle rest with
  | some (num, susp) => some (some title, num, susp)
  | none =>
    match rest with
    | [] => none
    | c :: r =>
      if c = '\n' then none else epiSearchAux (title ++ [c]) r

/-- Content of the brace-delimited episode block, after the opening brace:
`(?P<epi_title>.+?)? (?: … )? \}` and the suspended tail.  The optional
title group is greedy (present tried before absent). -/
def epiInner (l : List Char) : Option (Option (List Char) × EpiNum × Bool) :=
  let absent : Option (Option (List Char) × EpiNum × Bool) :=
    match epiAfterTitle l with
    | some (num, susp) => some (none, num, susp)
    | none => none
  match l with
  | [] => absent
  | c :: r =>
    if c = '\n' then absent
    else
      match epiSearchAux [c] r with
      | some res => some res
      | none => absent

/-- The tail of the series alternative, after the closing parenthesis of
the year token: the optional brace block (greedy), then the suspended
tail. -/
def seriesTail (ser : List Char) (l : List Char) : Option TidGroups :=
  let tryEpi : Option TidGroups :=
    let s := l.span pySpace
    if s.1 = [] then none
    else
      match s.2 with
      | c :: r2 =>
        if c = lbrace then
          match epiInner r2 with
          | some (tit, num, susp) =>
            some ⟨some ser, true, tit, num, none, false, false, false, susp⟩
          | none => none
        else none
      | [] => none
  match tryEpi with
  | some g => some g
  | none =>
    match matchSusp l with
    | some susp =>
      some ⟨some ser, false, none, EpiNum.nonum, none, false, false, false, susp⟩
    | none => none

/-- The series alternative:
`"(?P<series>[^"]+)"\s+\([?\d/IVLX]{4,}\)` followed by `seriesTail`.
All quantifiers before the tail are determined (each is a maximal run
followed by a literal the run's class cannot match). -/
def seriesBranch (l : List Char) : Option TidGroups :=
  match l with
  | '"' :: rest =>
    let s := rest.span (fun c => c ≠ '"')
    if s.1 = [] then none
    else
      match s.2 with
      | '"' :: r2 =>
        let w := r2.span pySpace
        if w.1 = [] then none
        else
          match w.2 with
          | '(' :: r4 =>
            let y := r4.span yearChar
            if y.1.length < 4 then none
            else
              match y.2 with
              | ')' :: r6 => seriesTail s.1 r6
              | _ => none
          | _ => none
      | _ => none
  | _ => none

/-- Result of the three optional trailing markers and the suspended tail:
`(tv, video, videogame, suspended)`. -/
abbrev Markers := Bool × Bool × Bool × Bool

/-- `\s+` followed by a parenthesized literal marker. -/
def markerLit (mk : List Char) (l : List Char) : Option (List Char) :=
  let s := l.span pySpace
  if s.1 = [] then none else dropLit mk s.2

/-- `(?P<videogame>\s+\(VG\))?` and the suspended tail, with full
backtracking between the present and absent alternatives. -/
def vgChain (l : List Char) : Option (Bool × Bool) :=
  let absent : Option (Bool × Bool) :=
    match matchSusp l with
    | some s => some (false, s)
    | none => none
  match markerLit "(VG)".data l with
  | some r =>
    match matchSusp r with
    | some s => some (true, s)
    | none => absent
  | none => absent

/-- `(?P<video>\s+\(V\))?` then the videogame marker and suspended tail. -/
def vChain (l : List Char) : Option (Bool × Bool × Bool) :=
  let absent : Option (Bool × Bool × Bool) :=
    match vgChain l with
    | some (vg, s) => some (false, vg, s)
    | none => none
  match markerLit "(V)".data l with
  | some r =>
    match vgChain r with
    | some (vg, s) => some (true, vg, s)
    | none => absent
  | none => absent

/-- `(?P<tv>\s+\(TV\))?` then the remaining markers and suspended tail. -/
def tvChain (l : List Char) : Option Markers :=
  let absent : Option Markers :=
    match vChain l with
    | some (v, vg, s) => some (false, v, vg, s)
    | none => none
  match markerLit "(TV)".data l with
  | some r =>
    match vChain r with
    | some (v, vg, s) => some (true, v, vg, s)
    | none => absent
  | none => absent

/-- After a candidate `non_series` title: `\s+\([?\d/IVLX]{4,}\)` then the
marker chain. -/
def nonSeriesAfter (l : List Char) : Option Markers :=
  let w := l.span pySpace
  if w.1 = [] then none
  else
    match w.2 with
    | '(' :: r2 =>
      let y := r2.span yearChar
      if y.1.length < 4 then none
      else
        match y.2 with
        | ')' :: r4 => tvChain r4
        | _ => none
    | _ => none

/-- The lazy search for `(?P<non_series>.+?)`: shortest candidate first,
retrying the whole continuation for each. -/
def nonSeriesSearchAux (title : List Char) (rest : List Char) : Option TidGroups :=
  match nonSeriesAfter rest with
  | some (tv, v, vg, susp) =>
    some ⟨none, false, none, EpiNum.nonum, some title, tv, v, vg, susp⟩
  | none =>
    match rest with
    | [] => none
    | c :: r =>
      if c = '\n' then none else nonSeriesSearchAux (title ++ [c]) r

/-- The non-series alternative of `TID_PAT`. -/
def nonSeriesBranch : List Char → Option TidGroups
  | [] => none
  | c :: r => if c = '\n' then none else nonSeriesSearchAux [c] r

/-- `TID_PAT.match(id)`: the series alternative is tried (with all of its
internal backtracking) before the non-series alternative. -/
def tidMatch (id : String) : Option TidGroups :=
  match seriesBranch id.data with
  | some g => some g
  | none => nonSeriesBranch id.data

/-- The episode sub-dict built by `construct_title`, in the source's
insertion order: `title`, then `season`/`episode` or `year`/`month`/`day`. -/
def buildEpisode (tit : Option (List Char)) (num : EpiNum) : Rec :=
  let e0 : Rec :=
    match tit with
    | some t => [("title", Val.str (String.mk t))]
    | none => []
  match num with
  | EpiNum.nonum => e0
  | EpiNum.se s e =>
    e0 ++ [("season", Val.int (digitsToNat s)), ("episode", Val.int (digitsToNat e))]
  | EpiNum.ymd y mo d =>
    e0 ++ [("year", Val.int (digitsToNat y)), ("month", Val.int (digitsToNat mo)),
      ("day", Val.int (digitsToNat d))]

/-- `construct_title` from the source: seed record for a title key.  On a
failed match the record carries only the raw id (the source also logs
`bad-tid` to stderr). -/
def construct_title (id : String) : Rec :=
  let rec0 : Rec := [("id", Val.str id)]
  match tidMatch id with
  | some g =>
    let rec1 : Rec :=
      match g.series with
      | some s =>
        let r := dictSet rec0 "title" (Val.str (String.mk s))
        if g.epi then
          let r := dictSet r "episode" (Val.obj (buildEpisode g.epi_title g.epinum))
          dictSet r "kind" (Val.str "episode")
        else dictSet r "kind" (Val.str "series")
      | none =>
        let r := dictSet rec0 "title"
          (match g.non_series with
           | some t => Val.str (String.mk t)
           | none => Val.null)
        if g.tv then dictSet r "kind" (Val.str "tv-movie")
        else if g.video then dictSet r "kind" (Val.str "video")
        else if g.videogame then dictSet r "kind" (Val.str "videogame")
        else dictSet r "kind" (Val.str "movie")
    if g.suspended then dictSet rec1 "suspended" (Val.bool true) else rec1
  | none => rec0

/-- `construct_name` from the source. -/
def construct_name (id : String) : Rec := [("id", Val.str id)]

/-! ## The pipeline: `roundrobin`, `rec_sorted`, `do_convert` -/

/-- Total number of elements across the adapter sequences. -/
def sumLen (ls : List (List Tup)) : Nat := (ls.map List.length).sum

/-- `roundrobin` with explicit fuel (one unit per round; the fuel below is
always sufficient because every round consumes at least one element). -/
def roundrobinF : Nat → List (List α) → List α
  | 0, _ => []
  | fuel + 1, ls =>
    match ls.filter (fun l => !l.isEmpty) with
    | [] => []
    | live =>
      live.filterMap (fun l => l.head?) ++ roundrobinF fuel (live.map (fun l => l.drop 1))

/-- `roundrobin` from the source: interleave the sequences one element at a
time, skipping exhausted sequences, until all are exhausted.  Each round
takes the head of every surviving sequence in order, as the cycled
`__next__` callables do. -/
def roundrobin (ls : List (List α)) : List α :=
  roundrobinF (ls.map List.length).sum ls

/-- `_MAX_SORT_BUF` from the source. -/
def _MAX_SORT_BUF : Nat := 100000

/-- Fuel-driven splitting of the input into successive buffers of `C`
tuples (the spill loop of `rec_sorted`): a store is spilled each time the
buffer reaches `C`, and the final non-empty partial buffer is flushed. -/
def chunksAux (C : Nat) : Nat → List α → List (List α)
  | _, [] => []
  | 0, _ :: _ => []
  | fuel + 1, x :: xs => ((x :: xs).take C) :: chunksAux C fuel ((x :: xs).drop C)

/-- The successive Ordered-Store buffers of `rec_sorted` for capacity `C`. -/
def chunks (C : Nat) (l : List α) : List (List α) := chunksAux C l.length l

/-- Python's `<` on strings: strict lexicographic comparison of the code
point sequences.  This is the comparison `sorted`, `heapq.merge` and
`groupby` perform on the keys. -/
def strLtB : List Char → List Char → Bool
  | [], [] => false
  | [], _ :: _ => true
  | _ :: _, [] => false
  | a :: as, b :: bs =>
    if a.toNat < b.toNat then true
    else if b.toNat < a.toNat then false
    else strLtB as bs

/-- Python `a < b` on key strings. -/
def sLtB (a b : String) : Bool := strLtB a.data b.data

/-- Python `a <= b` on key strings (`¬ b < a`, as the total order has it). -/
def sLeB (a b : String) : Bool := !sLtB b a

/-- The strict key order as a proposition. -/
def sLt (a b : String) : Prop := sLtB a b = true

/-- The non-strict key order as a proposition. -/
def sLe (a b : String) : Prop := sLeB a b = true

instance : DecidableRel sLt := fun _ _ => inferInstanceAs (Decidable (_ = true))

instance : DecidableRel sLe := fun _ _ => inferInstanceAs (Decidable (_ = true))

/-- The order in which a chunk is written out:
`sorted(srtd, key=lambda x: x[0])` compares tuples by their key. -/
def keyLe (a b : Tup) : Prop := sLe (tKey a) (tKey b)

instance : DecidableRel keyLe := fun _ _ => inferInstanceAs (Decidable (sLe _ _))

/-- One Ordered Store: the buffer stably sorted by key. -/
def sortChunk (l : List Tup) : List Tup := List.insertionSort keyLe l

/-- Pop, among the streams, the head tuple that `heapq.merge` yields next:
the earliest stream whose head key is minimal (`heapq` breaks equal keys by
the stream's arrival order). -/
def popMin : List (List Tup) → Option (Tup × List (List Tup))
  | [] => none
  | [] :: rest =>
    match popMin rest with
    | some (t, ls) => some (t, [] :: ls)
    | none => none
  | (t :: ts) :: rest =>
    match popMin rest with
    | none => some (t, ts :: rest)
    | some (u, ls) =>
      if sLtB (tKey u) (tKey t) then some (u, (t :: ts) :: ls)
      else some (t, ts :: rest)

/-- Fuel-driven k-way heap merge (`heapq.merge(..., key=lambda x: x[0])`). -/
def kmergeF : Nat → List (List Tup) → List Tup
  | 0, _ => []
  | n + 1, ls =>
    match popMin ls with
    | none => []
    | some (t, ls') => t :: kmergeF n ls'

/-- `heapq.merge` over the Ordered Stores. -/
def kmerge (ls : List (List Tup)) : List Tup := kmergeF (sumLen ls) ls

/-- `rec_sorted` with the buffer capacity made explicit: spill the input in
buffers of `C`, each stably sorted by key, and k-way merge the stores. -/
def rec_sorted_gen (C : Nat) (recs : List Tup) : List Tup :=
  kmerge ((chunks C recs).map sortChunk)

/-- `rec_sorted` from the source (`C = _MAX_SORT_BUF`). -/
def rec_sorted (recs : List Tup) : List Tup := rec_sorted_gen _MAX_SORT_BUF recs

/-- Maximal runs of consecutive tuples sharing a key, with the run's key:
the groups produced by `itertools.groupby(..., key=lambda x: x[0])`. -/
def groupRuns : List Tup → List (String × List Tup)
  | [] => []
  | t :: ts =>
    match groupRuns ts with
    | [] => [(tKey t, [t])]
    | (k, g) :: rest =>
      if tKey t = k then (k, t :: g) :: rest
      else (tKey t, [t]) :: (k, g) :: rest

/-- Adjacent deduplication of the key sequence: the distinct keys of a
stream in emission order. -/
def dedupAdj : List String → List String
  | [] => []
  | k :: ks =>
    match dedupAdj ks with
    | [] => [k]
    | k' :: r => if k = k' then k' :: r else k :: k' :: r

/-- Sequential fallible map: the output stream of records, `none` when the
program dies with an exception at some element. -/
def optMap {α β : Type} (f : α → Option β) : List α → Option (List β)
  | [] => some []
  | a :: r =>
    match f a with
    | none => none
    | some b =>
      match optMap f r with
      | none => none
      | some rest => some (b :: rest)

/-- Sequential fallible fold: the record after folding the run's tuples,
`none` when a tuple raises (`lst.append` on a non-list). -/
def optFold (f : Rec → Tup → Option Rec) : Rec → List Tup → Option Rec
  | r, [] => some r
  | r, t :: ts =>
    match f r t with
    | none => none
    | some r' => optFold f r' ts

/-- The assembly loop of `do_convert`: group the (sorted) stream into runs
of equal keys; seed each run's record with the constructor and fold the
run's tuples into it in stream order.  `none` models the run aborting with
an `AttributeError` from `lst.append`. -/
def do_convert (construct : String → Rec) (stream : List Tup) : Option (List Rec) :=
  optMap (fun g => optFold applyTuple (construct g.1) g.2) (groupRuns stream)

/-! ## Order theory for the key comparison -/

theorem strLtB_irrefl : ∀ a : List Char, strLtB a a = false
  | [] => rfl
  | _ :: cs => by simp [strLtB, strLtB_irrefl cs]

theorem strLtB_trans : ∀ a b c : List Char,
    strLtB a b = true → strLtB b c = true → strLtB a c = true := by
  intro a
  induction a with
  | nil =>
    intro b c h1 h2
    cases b with
    | nil => simp [strLtB] at h1
    | cons y ys =>
      cases c with
      | nil => simp [strLtB] at h2
      | cons z zs => rfl
  | cons x xs ih =>
    intro b c h1 h2
    cases b with
    | nil => simp [strLtB] at h1
    | cons y ys =>
      cases c with
      | nil => simp [strLtB] at h2
      | cons z zs =>
        simp only [strLtB] at h1 h2 ⊢
        rcases Nat.lt_trichotomy x.toNat y.toNat with hxy | hxy | hxy
        · rcases Nat.lt_trichotomy y.toNat z.toNat with hyz | hyz | hyz
          · rw [if_pos (by omega)]
          · rw [if_pos (by omega)]
          · rw [if_neg (by omega), if_pos hyz] at h2
            cases h2
        · rcases Nat.lt_trichotomy y.toNat z.toNat with hyz | hyz | hyz
          · rw [if_pos (by omega)]
          · rw [if_neg (by omega), if_neg (by omega)] at h1 h2 ⊢
            exact ih ys zs h1 h2
          · rw [if_neg (by omega), if_pos hyz] at h2
            cases h2
        · rw [if_neg (by omega), if_pos hxy] at h1
          cases h1

theorem strLtB_eq_of_not : ∀ a b : List Char,
    strLtB a b = false → strLtB b a = false → a = b := by
  intro a
  induction a with
  | nil =>
    intro b h1 _
    cases b with
    | nil => rfl
    | cons y ys => simp [strLtB] at h1
  | cons x xs ih =>
    intro b h1 h2
    cases b with
    | nil => simp [strLtB] at h2
    | cons y ys =>
      simp only [strLtB] at h1 h2
      rcases Nat.lt_trichotomy x.toNat y.toNat with h | h | h
      · rw [if_pos h] at h1
        cases h1
      · have hxy : x = y := Char.ext (UInt32.ext h)
        subst hxy
        rw [if_neg (by omega), if_neg (by omega)] at h1 h2
        rw [ih ys h1 h2]
      · rw [if_pos h] at h2
        cases h2

theorem strLtB_asymm : ∀ a b : List Char, strLtB a b = true → strLtB b a = false := by
  intro a
  induction a with
  | nil =>
    intro b _
    cases b with
    | nil => rfl
    | cons y ys => rfl
  | cons x xs ih =>
    intro b h1
    cases b with
    | nil => simp [strLtB] at h1
    | cons y ys =>
      simp only [strLtB] at h1 ⊢
      rcases Nat.lt_trichotomy x.toNat y.toNat with h | h | h
      · rw [if_neg (by omega), if_pos h]
      · rw [if_neg (by omega), if_neg (by omega)] at h1 ⊢
        exact ih ys h1
      · rw [if_neg (by omega), if_pos h] at h1
        cases h1

theorem sLt_asymm {a b : String} (h : sLt a b) : ¬ sLt b a := by
  unfold sLt sLtB at h ⊢
  rw [strLtB_asymm _ _ h]
  simp

theorem sLt_trans {a b c : String} (h1 : sLt a b) (h2 : sLt b c) : sLt a c :=
  strLtB_trans _ _ _ h1 h2

theorem sLt_irrefl (a : String) : ¬ sLt a a := by
  unfold sLt sLtB
  rw [strLtB_irrefl]
  simp

theorem eq_of_not_sLt {a b : String} (h1 : ¬ sLt a b) (h2 : ¬ sLt b a) : a = b := by
  unfold sLt at h1 h2
  have h1' : sLtB a b = false := by
    cases h : sLtB a b
    · rfl
    · exact absurd h h1
  have h2' : sLtB b a = false := by
    cases h : sLtB b a
    · rfl
    · exact absurd h h2
  have := strLtB_eq_of_not a.data b.data h1' h2'
  cases a; cases b
  exact congrArg _ this

theorem sLe_iff_not_sLt {a b : String} : sLe a b ↔ ¬ sLt b a := by
  unfold sLe sLeB sLt
  cases h : sLtB b a <;> simp

theorem sLt_iff_not_sLe {a b : String} : sLt a b ↔ ¬ sLe b a := by
  unfold sLe sLeB sLt
  cases h : sLtB a b <;> simp

theorem sLe_refl (a : String) : sLe a a := sLe_iff_not_sLt.mpr (sLt_irrefl a)

theorem sLe_of_sLt {a b : String} (h : sLt a b) : sLe a b :=
  sLe_iff_not_sLt.mpr (sLt_asymm h)

theorem sLe_trans {a b c : String} (h1 : sLe a b) (h2 : sLe b c) : sLe a c := by
  rw [sLe_iff_not_sLt] at h1 h2 ⊢
  intro h
  rcases Decidable.em (sLt a b) with hab | hab
  · exact h2 (sLt_trans h hab)
  · have : a = b := eq_of_not_sLt hab h1
    subst this
    exact h2 h

theorem sLe_antisymm {a b : String} (h1 : sLe a b) (h2 : sLe b a) : a = b :=
  eq_of_not_sLt (sLe_iff_not_sLt.mp h2) (sLe_iff_not_sLt.mp h1)

theorem sLe_total (a b : String) : sLe a b ∨ sLe b a := by
  rcases Decidable.em (sLt b a) with h | h
  · exact Or.inr (sLe_of_sLt h)
  · exact Or.inl (sLe_iff_not_sLt.mpr h)

theorem sLt_of_sLe_of_ne {a b : String} (h : sLe a b) (hne : a ≠ b) : sLt a b := by
  rcases Decidable.em (sLt a b) with h' | h'
  · exact h'
  · exact absurd (eq_of_not_sLt h' (sLe_iff_not_sLt.mp h)) hne

instance : IsTotal Tup keyLe := ⟨fun a b => sLe_total (tKey a) (tKey b)⟩

instance : IsTrans Tup keyLe := ⟨fun _ _ _ h h' => sLe_trans h h'⟩

instance : IsTotal String sLe := ⟨sLe_total⟩

instance : IsTrans String sLe := ⟨fun _ _ _ h h' => sLe_trans h h'⟩

instance : IsAntisymm String sLe := ⟨fun _ _ h h' => sLe_antisymm h h'⟩

instance : IsTrans String sLt := ⟨fun _ _ _ h h' => sLt_trans h h'⟩

/-! ## Dict lemmas -/

theorem dictGet_dictSet_same (r : Rec) (f : String) (v : Val) :
    dictGet (dictSet r f v) f = some v := by
  induction r with
  | nil => simp [dictGet, dictSet]
  | cons p rest ih =>
    obtain ⟨k, w⟩ := p
    by_cases h : k = f
    · subst h
      simp [dictGet, dictSet]
    · simp [dictGet, dictSet, h, ih]

theorem dictGet_dictSet_other (r : Rec) (f g : String) (v : Val) (h : g ≠ f) :
    dictGet (dictSet r f v) g = dictGet r g := by
  induction r with
  | nil => simp [dictGet, dictSet, Ne.symm h]
  | cons p rest ih =>
    obtain ⟨k, w⟩ := p
    by_cases hk : k = f
    · subst hk
      simp [dictGet, dictSet, Ne.symm h]
    · by_cases hg : k = g
      · subst hg
        simp [dictGet, dictSet, hk]
      · simp [dictGet, dictSet, hk, hg, ih]


/-! ## Chunked sorter lemmas -/

theorem chunksAux_congr {α : Type} (C : Nat) (hC : 0 < C) :
    ∀ fuel, ∀ l : List α, l.length ≤ fuel → chunksAux C fuel l = chunksAux C l.length l := by
  intro fuel
  induction fuel using Nat.strong_induction_on with
  | _ fuel ih =>
    intro l hl
    cases fuel with
    | zero =>
      have hnil : l = [] := List.eq_nil_of_length_eq_zero (Nat.le_zero.mp hl)
      subst hnil
      rfl
    | succ f =>
      cases l with
      | nil => rfl
      | cons x xs =>
        simp only [List.length_cons] at hl ⊢
        simp only [chunksAux]
        congr 1
        have hdlen : ((x :: xs).drop C).length = xs.length + 1 - C := by
          simp [List.length_drop]
        have hdf : ((x :: xs).drop C).length ≤ f := by omega
        have hdxs : ((x :: xs).drop C).length ≤ xs.length := by omega
        have e1 := ih f (Nat.lt_succ_self f) ((x :: xs).drop C) hdf
        have e2 := ih xs.length (by omega) ((x :: xs).drop C) hdxs
        rw [e1, e2]

theorem chunks_nil {α : Type} (C : Nat) : chunks C ([] : List α) = [] := rfl

theorem chunks_cons {α : Type} (C : Nat) (hC : 0 < C) (l : List α) (hl : l ≠ []) :
    chunks C l = l.take C :: chunks C (l.drop C) := by
  cases l with
  | nil => exact absurd rfl hl
  | cons x xs =>
    show chunksAux C (x :: xs).length (x :: xs) = _
    simp only [List.length_cons, chunksAux]
    congr 1
    exact chunksAux_congr C hC xs.length ((x :: xs).drop C)
      (by simp [List.length_drop]; omega)

theorem join_chunks {α : Type} (C : Nat) (hC : 0 < C) :
    ∀ (n : Nat) (l : List α), l.length ≤ n → (chunks C l).flatten = l := by
  intro n
  induction n with
  | zero =>
    intro l hl
    have hnil : l = [] := List.eq_nil_of_length_eq_zero (Nat.le_zero.mp hl)
    subst hnil
    rfl
  | succ m ih =>
    intro l hl
    cases l with
    | nil => rfl
    | cons x xs =>
      rw [chunks_cons C hC _ (by simp)]
      simp only [List.flatten_cons]
      rw [ih ((x :: xs).drop C) (by simp [List.length_drop] at hl ⊢; omega)]
      exact List.take_append_drop C (x :: xs)

theorem chunks_ne_nil {α : Type} (C : Nat) (hC : 0 < C) (l : List α) (hl : l ≠ []) :
    chunks C l ≠ [] := by
  rw [chunks_cons C hC l hl]
  simp

theorem mem_chunks_ne_nil {α : Type} (C : Nat) (hC : 0 < C) :
    ∀ (n : Nat) (l : List α), l.length ≤ n → ∀ c ∈ chunks C l, c ≠ [] ∧ c.length ≤ C := by
  intro n
  induction n with
  | zero =>
    intro l hl c hc
    have hnil : l = [] := List.eq_nil_of_length_eq_zero (Nat.le_zero.mp hl)
    subst hnil
    simp [chunks_nil] at hc
  | succ m ih =>
    intro l hl c hc
    cases l with
    | nil => simp [chunks_nil] at hc
    | cons x xs =>
      rw [chunks_cons C hC _ (by simp)] at hc
      rcases List.mem_cons.mp hc with h | h
      · subst h
        constructor
        · cases hCn : C with
          | zero => omega
          | succ n' => simp [List.take_cons]
        · exact List.length_take_le C (x :: xs)
      · exact ih ((x :: xs).drop C) (by simp [List.length_drop] at hl ⊢; omega) c h

theorem chunks_dropLast_full {α : Type} (C : Nat) (hC : 0 < C) :
    ∀ (n : Nat) (l : List α), l.length ≤ n →
      ∀ c ∈ (chunks C l).dropLast, c.length = C := by
  intro n
  induction n with
  | zero =>
    intro l hl c hc
    have hnil : l = [] := List.eq_nil_of_length_eq_zero (Nat.le_zero.mp hl)
    subst hnil
    simp [chunks_nil] at hc
  | succ m ih =>
    intro l hl c hc
    cases l with
    | nil => simp [chunks_nil] at hc
    | cons x xs =>
      rw [chunks_cons C hC _ (by simp)] at hc
      by_cases hrest : chunks C ((x :: xs).drop C) = []
      · rw [hrest] at hc
        simp at hc
      · rw [List.dropLast_cons_of_ne_nil hrest] at hc
        rcases List.mem_cons.mp hc with h | h
        · subst h
          have hlen : C ≤ (x :: xs).length := by
            by_contra hlt
            push_neg at hlt
            have : (x :: xs).drop C = [] := List.drop_eq_nil_of_le (by omega)
            rw [this] at hrest
            exact hrest (chunks_nil C)
          simpa using List.length_take_of_le hlen
        · exact ih ((x :: xs).drop C) (by simp [List.length_drop] at hl ⊢; omega) c h

theorem length_chunks_dvd {α : Type} (C : Nat) (hC : 0 < C) :
    ∀ (n : Nat) (l : List α), l.length ≤ n → C ∣ l.length →
      (chunks C l).length = l.length / C := by
  intro n
  induction n with
  | zero =>
    intro l hl _
    have hnil : l = [] := List.eq_nil_of_length_eq_zero (Nat.le_zero.mp hl)
    subst hnil
    simp [chunks_nil]
  | succ m ih =>
    intro l hl hdvd
    cases l with
    | nil => simp [chunks_nil]
    | cons x xs =>
      rw [chunks_cons C hC _ (by simp)]
      have hlen : C ≤ (x :: xs).length := by
        rcases hdvd with ⟨k, hk⟩
        cases k with
        | zero => simp at hk
        | succ k' =>
          have hCle : C ≤ C * (k' + 1) := Nat.le_mul_of_pos_right C (Nat.succ_pos k')
          omega
      rw [List.length_cons,
        ih ((x :: xs).drop C) (by simp [List.length_drop] at hl ⊢; omega)
          (by simp only [List.length_drop]; exact (Nat.dvd_sub' hdvd (dvd_refl C)))]
      simp only [List.length_drop]
      conv_rhs => rw [Nat.div_eq_sub_div hC hlen]

/-! ## Stability of the per-chunk sort -/

/-- The Boolean key test used to trace one key's tuples through the
pipeline. -/
def keyFilt (k : String) (t : Tup) : Bool := tKey t == k

theorem filter_orderedInsert (k : String) (a : Tup) (l : List Tup) :
    (List.orderedInsert keyLe a l).filter (keyFilt k) =
      if keyFilt k a then a :: l.filter (keyFilt k) else l.filter (keyFilt k) := by
  induction l with
  | nil =>
    simp only [List.orderedInsert, List.filter]
    cases h : keyFilt k a <;> simp [h]
  | cons b bs ih =>
    by_cases hab : keyLe a b
    · rw [List.orderedInsert_of_le keyLe bs hab]
      cases h : keyFilt k a <;> simp [List.filter_cons, h]
    · simp only [List.orderedInsert, if_neg hab]
      cases hk : keyFilt k a with
      | true =>
        have hb : keyFilt k b = false := by
          cases hkb : keyFilt k b with
          | false => rfl
          | true =>
            exfalso
            apply hab
            have ha' : tKey a = k := by simpa [keyFilt] using hk
            have hb' : tKey b = k := by simpa [keyFilt] using hkb
            unfold keyLe
            rw [ha', hb']
            exact sLe_refl k
        simp [List.filter_cons, hb, ih, hk]
      | false => simp [List.filter_cons, ih, hk]

theorem filter_sortChunk (k : String) (l : List Tup) :
    (sortChunk l).filter (keyFilt k) = l.filter (keyFilt k) := by
  unfold sortChunk
  induction l with
  | nil => rfl
  | cons a as ih =>
    simp only [List.insertionSort]
    rw [filter_orderedInsert]
    cases hk : keyFilt k a <;> simp [hk, ih, List.filter_cons]

theorem sorted_sortChunk (l : List Tup) : List.Sorted keyLe (sortChunk l) :=
  List.sorted_insertionSort keyLe l

theorem perm_sortChunk (l : List Tup) : List.Perm (sortChunk l) l :=
  List.perm_insertionSort keyLe l

/-! ## K-way merge lemmas -/

theorem popMin_none_all_nil : ∀ ls : List (List Tup), popMin ls = none → ∀ l ∈ ls, l = [] := by
  intro ls
  induction ls with
  | nil =>
    intro _ l hl
    cases hl
  | cons a rest ih =>
    intro h l hl
    cases a with
    | nil =>
      have hr : popMin rest = none := by
        cases hp : popMin rest with
        | none => rfl
        | some p =>
          obtain ⟨t, ls2⟩ := p
          simp [popMin, hp] at h
      rcases List.mem_cons.mp hl with h' | h'
      · exact h'
      · exact ih hr l h'
    | cons t ts =>
      exfalso
      cases hp : popMin rest with
      | none => simp [popMin, hp] at h
      | some p =>
        obtain ⟨u, ls2⟩ := p
        by_cases hlt : sLtB (tKey u) (tKey t) = true
        · simp [popMin, hp, hlt] at h
        · simp [popMin, hp, hlt] at h

theorem popMin_decomp : ∀ (ls : List (List Tup)) (t : Tup) (ls' : List (List Tup)),
    popMin ls = some (t, ls') →
    ∃ pre mid post, ls = pre ++ (t :: mid) :: post ∧ ls' = pre ++ mid :: post ∧
      (∀ l0 ∈ pre, ∀ u rest, l0 = u :: rest → sLt (tKey t) (tKey u)) ∧
      (∀ l0 ∈ post, ∀ u rest, l0 = u :: rest → sLe (tKey t) (tKey u)) := by
  intro ls
  induction ls with
  | nil =>
    intro t ls' h
    cases h
  | cons a rest ih =>
    intro t ls' h
    cases a with
    | nil =>
      cases hp : popMin rest with
      | none => simp [popMin, hp] at h
      | some p =>
        obtain ⟨u, ls2⟩ := p
        simp only [popMin, hp] at h
        injection h with h1
        injection h1 with ht hls
        obtain ⟨pre, mid, post, e1, e2, c1, c2⟩ := ih u ls2 hp
        subst ht
        refine ⟨[] :: pre, mid, post, ?_, ?_, ?_, ?_⟩
        · simp [e1]
        · simp [← hls, e2]
        · intro l0 hl0 u' rest' hcons
          rcases List.mem_cons.mp hl0 with h' | h'
          · rw [h'] at hcons
            cases hcons
          · exact c1 l0 h' u' rest' hcons
        · exact c2
    | cons t0 ts =>
      cases hp : popMin rest with
      | none =>
        simp only [popMin, hp] at h
        injection h with h1
        injection h1 with ht hls
        subst ht
        refine ⟨[], ts, rest, by simp, by simp [← hls], ?_, ?_⟩
        · intro l0 hl0
          cases hl0
        · intro l0 hl0 u' rest' hcons
          have hnil := popMin_none_all_nil rest hp l0 hl0
          rw [hnil] at hcons
          cases hcons
      | some p =>
        obtain ⟨u, ls2⟩ := p
        obtain ⟨pre, mid, post, e1, e2, c1, c2⟩ := ih u ls2 hp
        by_cases hlt : sLtB (tKey u) (tKey t0) = true
        · simp only [popMin, hp] at h
          rw [if_pos hlt] at h
          injection h with h1
          injection h1 with ht hls
          subst ht
          refine ⟨(t0 :: ts) :: pre, mid, post, by simp [e1], by simp [← hls, e2], ?_, c2⟩
          intro l0 hl0 u' rest' hcons
          rcases List.mem_cons.mp hl0 with h' | h'
          · rw [h'] at hcons
            injection hcons with hu _
            rw [← hu]
            exact hlt
          · exact c1 l0 h' u' rest' hcons
        · simp only [popMin, hp] at h
          rw [if_neg hlt] at h
          injection h with h1
          injection h1 with ht hls
          subst ht
          have htu : sLe (tKey t0) (tKey u) := by
            rw [sLe_iff_not_sLt]
            exact hlt
          refine ⟨[], ts, rest, by simp, by simp [← hls], ?_, ?_⟩
          · intro l0 hl0
            cases hl0
          · intro l0 hl0 u' rest' hcons
            rw [e1] at hl0
            rcases List.mem_append.mp hl0 with h' | h'
            · have hlt' := c1 l0 h' u' rest' hcons
              exact sLe_trans htu (sLe_of_sLt hlt')
            · rcases List.mem_cons.mp h' with h'' | h''
              · rw [h''] at hcons
                injection hcons with hu _
                rw [← hu]
                exact htu
              · have hle' := c2 l0 h'' u' rest' hcons
                exact sLe_trans htu hle'

theorem popMin_sumLen {ls : List (List Tup)} {t : Tup} {ls' : List (List Tup)}
    (h : popMin ls = some (t, ls')) : sumLen ls = sumLen ls' + 1 := by
  obtain ⟨pre, mid, post, e1, e2, _, _⟩ := popMin_decomp ls t ls' h
  subst e1
  subst e2
  simp [sumLen, List.map_append, List.sum_append]
  omega

theorem popMin_mem {ls : List (List Tup)} {t : Tup} {ls' : List (List Tup)}
    (h : popMin ls = some (t, ls')) {u : Tup} {l' : List Tup}
    (hl' : l' ∈ ls') (hu : u ∈ l') : ∃ l ∈ ls, u ∈ l := by
  obtain ⟨pre, mid, post, e1, e2, _, _⟩ := popMin_decomp ls t ls' h
  subst e1
  rw [e2] at hl'
  rcases List.mem_append.mp hl' with h' | h'
  · exact ⟨l', List.mem_append_left _ h', hu⟩
  · rcases List.mem_cons.mp h' with h'' | h''
    · subst h''
      exact ⟨t :: l', List.mem_append_right _ (List.mem_cons_self _ _),
        List.mem_cons_of_mem _ hu⟩
    · exact ⟨l', List.mem_append_right _ (List.mem_cons_of_mem _ h''), hu⟩

theorem popMin_sorted {ls : List (List Tup)} {t : Tup} {ls' : List (List Tup)}
    (h : popMin ls = some (t, ls')) (hs : ∀ l ∈ ls, List.Sorted keyLe l) :
    ∀ l ∈ ls', List.Sorted keyLe l := by
  obtain ⟨pre, mid, post, e1, e2, _, _⟩ := popMin_decomp ls t ls' h
  subst e1
  intro l hl
  rw [e2] at hl
  rcases List.mem_append.mp hl with h' | h'
  · exact hs l (List.mem_append_left _ h')
  · rcases List.mem_cons.mp h' with h'' | h''
    · subst h''
      have hsort := hs (t :: l) (List.mem_append_right _ (List.mem_cons_self _ _))
      exact (List.sorted_cons.mp hsort).2
    · exact hs l (List.mem_append_right _ (List.mem_cons_of_mem _ h''))

theorem sorted_head_le {t : Tup} {l : List Tup} (h : List.Sorted keyLe (t :: l)) :
    ∀ u ∈ t :: l, sLe (tKey t) (tKey u) := by
  intro u hu
  rcases List.mem_cons.mp hu with h' | h'
  · subst h'
    exact sLe_refl _
  · exact (List.sorted_cons.mp h).1 u h'

/-- Every tuple still queued after a pop sits at or above the popped head. -/
theorem popMin_le_all {ls : List (List Tup)} {t : Tup} {ls' : List (List Tup)}
    (h : popMin ls = some (t, ls')) (hs : ∀ l ∈ ls, List.Sorted keyLe l) :
    ∀ l' ∈ ls', ∀ u ∈ l', sLe (tKey t) (tKey u) := by
  obtain ⟨pre, mid, post, e1, e2, c1, c2⟩ := popMin_decomp ls t ls' h
  subst e1
  intro l' hl' u hu
  rw [e2] at hl'
  rcases List.mem_append.mp hl' with h' | h'
  · cases l' with
    | nil => cases hu
    | cons v vs =>
      have hv : sLt (tKey t) (tKey v) := c1 _ h' v vs rfl
      have hsort := hs (v :: vs) (List.mem_append_left _ h')
      exact sLe_trans (sLe_of_sLt hv) (sorted_head_le hsort u hu)
  · rcases List.mem_cons.mp h' with h'' | h''
    · subst h''
      have hsort := hs (t :: l') (List.mem_append_right _ (List.mem_cons_self _ _))
      exact sorted_head_le hsort u (List.mem_cons_of_mem _ hu)
    · cases l' with
      | nil => cases hu
      | cons v vs =>
        have hv : sLe (tKey t) (tKey v) := c2 _ h'' v vs rfl
        have hsort := hs (v :: vs) (List.mem_append_right _ (List.mem_cons_of_mem _ h''))
        exact sLe_trans hv (sorted_head_le hsort u hu)

theorem kmergeF_mem : ∀ (n : Nat) (ls : List (List Tup)) (u : Tup),
    u ∈ kmergeF n ls → ∃ l ∈ ls, u ∈ l := by
  intro n
  induction n with
  | zero =>
    intro ls u hu
    cases hu
  | succ m ih =>
    intro ls u hu
    cases hp : popMin ls with
    | none =>
      simp only [kmergeF, hp] at hu
      cases hu
    | some p =>
      obtain ⟨t, ls'⟩ := p
      simp only [kmergeF, hp] at hu
      rcases List.mem_cons.mp hu with h' | h'
      · subst h'
        obtain ⟨pre, mid, post, e1, _, _, _⟩ := popMin_decomp ls u ls' hp
        subst e1
        exact ⟨u :: mid, List.mem_append_right _ (List.mem_cons_self _ _),
          List.mem_cons_self _ _⟩
      · obtain ⟨l', hl', hul⟩ := ih ls' u h'
        exact popMin_mem hp hl' hul

theorem kmergeF_sorted : ∀ (n : Nat) (ls : List (List Tup)),
    (∀ l ∈ ls, List.Sorted keyLe l) → List.Sorted keyLe (kmergeF n ls) := by
  intro n
  induction n with
  | zero =>
    intro ls _
    exact List.sorted_nil
  | succ m ih =>
    intro ls hs
    cases hp : popMin ls with
    | none =>
      simp only [kmergeF, hp]
      exact List.sorted_nil
    | some p =>
      obtain ⟨t, ls'⟩ := p
      simp only [kmergeF, hp]
      rw [List.sorted_cons]
      constructor
      · intro b hb
        obtain ⟨l', hl', hbl⟩ := kmergeF_mem m ls' b hb
        exact popMin_le_all hp hs l' hl' b hbl
      · exact ih ls' (popMin_sorted hp hs)

theorem flatten_map_eq_nil {ls : List (List Tup)} (p : Tup → Bool)
    (h : ∀ l ∈ ls, l.filter p = []) : (ls.map (List.filter p)).flatten = [] := by
  induction ls with
  | nil => rfl
  | cons a rest ih =>
    simp only [List.map_cons, List.flatten_cons, h a (List.mem_cons_self _ _),
      List.nil_append]
    exact ih (fun l hl => h l (List.mem_cons_of_mem _ hl))

theorem sumLen_zero_all_nil {ls : List (List Tup)} (h : sumLen ls = 0) :
    ∀ l ∈ ls, l = [] := by
  intro l hl
  apply List.eq_nil_of_length_eq_zero
  unfold sumLen at h
  induction ls with
  | nil => cases hl
  | cons a rest ih =>
    simp only [List.map_cons, List.sum_cons] at h
    rcases List.mem_cons.mp hl with h' | h'
    · subst h'
      omega
    · exact ih (by omega) h'

theorem kmergeF_filter (k : String) : ∀ (n : Nat) (ls : List (List Tup)),
    sumLen ls ≤ n → (∀ l ∈ ls, List.Sorted keyLe l) →
    (kmergeF n ls).filter (keyFilt k) = (ls.map (List.filter (keyFilt k))).flatten := by
  intro n
  induction n with
  | zero =>
    intro ls hn _
    have hall : ∀ l ∈ ls, l = [] := sumLen_zero_all_nil (Nat.le_zero.mp hn)
    rw [flatten_map_eq_nil _ (fun l hl => by rw [hall l hl]; rfl)]
    rfl
  | succ m ih =>
    intro ls hn hs
    cases hp : popMin ls with
    | none =>
      simp only [kmergeF, hp]
      rw [flatten_map_eq_nil _ (fun l hl => by rw [popMin_none_all_nil ls hp l hl]; rfl)]
      rfl
    | some p =>
      obtain ⟨t, ls'⟩ := p
      simp only [kmergeF, hp]
      have hn' : sumLen ls' ≤ m := by
        have := popMin_sumLen hp
        omega
      have hrec := ih ls' hn' (popMin_sorted hp hs)
      obtain ⟨pre, mid, post, e1, e2, c1, _⟩ := popMin_decomp ls t ls' hp
      subst e1
      have hRHS : (((pre ++ (t :: mid) :: post).map (List.filter (keyFilt k))).flatten)
          = ((pre.map (List.filter (keyFilt k))).flatten ++ (t :: mid).filter (keyFilt k))
            ++ (post.map (List.filter (keyFilt k))).flatten := by
        simp [List.map_append, List.flatten_append]
      have hls' : ((ls'.map (List.filter (keyFilt k))).flatten)
          = ((pre.map (List.filter (keyFilt k))).flatten ++ mid.filter (keyFilt k))
            ++ (post.map (List.filter (keyFilt k))).flatten := by
        rw [e2]
        simp [List.map_append, List.flatten_append]
      rw [hRHS]
      cases hkt : keyFilt k t with
      | true =>
        have hkt' : tKey t = k := by simpa [keyFilt] using hkt
        have hpre : (pre.map (List.filter (keyFilt k))).flatten = [] := by
          apply flatten_map_eq_nil
          intro l0 hl0
          cases l0 with
          | nil => rfl
          | cons v vs =>
            have hv : sLt (tKey t) (tKey v) := c1 _ hl0 v vs rfl
            rw [List.filter_eq_nil_iff]
            intro u hu
            have hsort := hs (v :: vs) (List.mem_append_left _ hl0)
            have hle : sLe (tKey v) (tKey u) := sorted_head_le hsort u hu
            have hltk : sLt k (tKey u) := by
              rw [hkt'] at hv
              rcases Decidable.em (tKey v = tKey u) with he | he
              · rw [← he]
                exact hv
              · exact sLt_trans hv (sLt_of_sLe_of_ne hle he)
            intro hpu
            have hue : tKey u = k := by simpa [keyFilt] using hpu
            rw [hue] at hltk
            exact sLt_irrefl k hltk
        rw [List.filter_cons_of_pos (by exact hkt), hrec, hls', hpre]
        rw [List.filter_cons_of_pos (by exact hkt)]
        simp
      | false =>
        rw [List.filter_cons_of_neg (by simp [hkt]), hrec, hls']
        rw [List.filter_cons_of_neg (by simp [hkt])]

theorem kmergeF_perm : ∀ (n : Nat) (ls : List (List Tup)), sumLen ls ≤ n →
    List.Perm (kmergeF n ls) ls.flatten := by
  intro n
  induction n with
  | zero =>
    intro ls hn
    have hall := sumLen_zero_all_nil (Nat.le_zero.mp hn)
    have hfl : ls.flatten = [] := by
      rw [List.flatten_eq_nil_iff]
      exact hall
    rw [hfl]
    exact List.Perm.refl _
  | succ m ih =>
    intro ls hn
    cases hp : popMin ls with
    | none =>
      simp only [kmergeF, hp]
      have hfl : ls.flatten = [] := by
        rw [List.flatten_eq_nil_iff]
        exact popMin_none_all_nil ls hp
      rw [hfl]
    | some p =>
      obtain ⟨t, ls'⟩ := p
      simp only [kmergeF, hp]
      have hn' : sumLen ls' ≤ m := by
        have := popMin_sumLen hp
        omega
      obtain ⟨pre, mid, post, e1, e2, _, _⟩ := popMin_decomp ls t ls' hp
      subst e1
      apply List.Perm.trans (List.Perm.cons t (ih ls' hn'))
      rw [e2]
      have h1 : (pre ++ mid :: post).flatten = pre.flatten ++ (mid ++ post.flatten) := by
        simp [List.flatten_append]
      have h2 : (pre ++ (t :: mid) :: post).flatten
          = pre.flatten ++ (t :: (mid ++ post.flatten)) := by
        simp [List.flatten_append]
      rw [h1, h2]
      exact List.perm_middle.symm

/-! ## The sorted-stream theorems for `rec_sorted` -/

theorem rec_sorted_gen_sorted (C : Nat) (l : List Tup) :
    List.Sorted keyLe (rec_sorted_gen C l) := by
  unfold rec_sorted_gen kmerge
  apply kmergeF_sorted
  intro c hc
  obtain ⟨c0, _, rfl⟩ := List.mem_map.mp hc
  exact sorted_sortChunk c0

theorem flatten_map_sortChunk_perm : ∀ L : List (List Tup),
    List.Perm ((L.map sortChunk).flatten) L.flatten := by
  intro L
  induction L with
  | nil => exact List.Perm.refl _
  | cons a r ih =>
    simp only [List.map_cons, List.flatten_cons]
    exact List.Perm.append (perm_sortChunk a) ih

theorem rec_sorted_gen_perm (C : Nat) (hC : 0 < C) (l : List Tup) :
    List.Perm (rec_sorted_gen C l) l := by
  unfold rec_sorted_gen kmerge
  apply List.Perm.trans (kmergeF_perm _ _ (le_refl _))
  apply List.Perm.trans (flatten_map_sortChunk_perm (chunks C l))
  rw [join_chunks C hC l.length l (le_refl _)]

theorem rec_sorted_gen_filter (C : Nat) (hC : 0 < C) (l : List Tup) (k : String) :
    (rec_sorted_gen C l).filter (keyFilt k) = l.filter (keyFilt k) := by
  unfold rec_sorted_gen kmerge
  rw [kmergeF_filter k _ _ (le_refl _) (by
    intro c hc
    obtain ⟨c0, _, rfl⟩ := List.mem_map.mp hc
    exact sorted_sortChunk c0)]
  rw [List.map_map]
  have hmap : (chunks C l).map (List.filter (keyFilt k) ∘ sortChunk)
      = (chunks C l).map (List.filter (keyFilt k)) := by
    apply List.map_congr_left
    intro c _
    exact filter_sortChunk k c
  rw [hmap, ← List.filter_flatten, join_chunks C hC l.length l (le_refl _)]

/-! ## Grouping lemmas for the assembler -/

theorem groupRuns_cons_of_nil {ts : List Tup} (h : groupRuns ts = []) (t : Tup) :
    groupRuns (t :: ts) = [(tKey t, [t])] := by
  simp only [groupRuns, h]

theorem groupRuns_cons_of_cons {ts : List Tup} {k : String} {g : List Tup}
    {rest : List (String × List Tup)} (h : groupRuns ts = (k, g) :: rest) (t : Tup) :
    groupRuns (t :: ts)
      = if tKey t = k then (k, t :: g) :: rest
        else (tKey t, [t]) :: (k, g) :: rest := by
  simp only [groupRuns, h]

theorem dedupAdj_cons_of_nil {ks : List String} (h : dedupAdj ks = []) (k : String) :
    dedupAdj (k :: ks) = [k] := by
  simp only [dedupAdj, h]

theorem dedupAdj_cons_of_cons {ks : List String} {k' : String} {r : List String}
    (h : dedupAdj ks = k' :: r) (k : String) :
    dedupAdj (k :: ks) = if k = k' then k' :: r else k :: k' :: r := by
  simp only [dedupAdj, h]

theorem groupRuns_nil_iff (s : List Tup) : groupRuns s = [] ↔ s = [] := by
  cases s with
  | nil => simp [groupRuns]
  | cons t ts =>
    cases hg : groupRuns ts with
    | nil =>
      rw [groupRuns_cons_of_nil hg]
      simp
    | cons p rest =>
      obtain ⟨k, g⟩ := p
      rw [groupRuns_cons_of_cons hg]
      by_cases hk : tKey t = k
      · rw [if_pos hk]
        simp
      · rw [if_neg hk]
        simp

theorem groupRuns_head_key (t : Tup) (ts : List Tup) :
    ∃ g rest, groupRuns (t :: ts) = (tKey t, g) :: rest := by
  cases hg : groupRuns ts with
  | nil => exact ⟨[t], [], groupRuns_cons_of_nil hg t⟩
  | cons p rest =>
    obtain ⟨k, g⟩ := p
    by_cases hk : tKey t = k
    · refine ⟨t :: g, rest, ?_⟩
      rw [groupRuns_cons_of_cons hg, if_pos hk, hk]
    · refine ⟨[t], (k, g) :: rest, ?_⟩
      rw [groupRuns_cons_of_cons hg, if_neg hk]

theorem groupRuns_keys : ∀ s : List Tup,
    (groupRuns s).map Prod.fst = dedupAdj (s.map tKey) := by
  intro s
  induction s with
  | nil => rfl
  | cons t ts ih =>
    simp only [List.map_cons]
    cases hg : groupRuns ts with
    | nil =>
      have hd : dedupAdj (ts.map tKey) = [] := by
        rw [← ih, hg]
        rfl
      rw [groupRuns_cons_of_nil hg, dedupAdj_cons_of_nil hd]
      rfl
    | cons p rest =>
      obtain ⟨k, g⟩ := p
      have hd : dedupAdj (ts.map tKey) = k :: rest.map Prod.fst := by
        rw [← ih, hg]
        rfl
      rw [groupRuns_cons_of_cons hg, dedupAdj_cons_of_cons hd]
      by_cases hk : tKey t = k
      · rw [if_pos hk, if_pos hk]
        rfl
      · rw [if_neg hk, if_neg hk]
        rfl

theorem mem_of_mem_dedupAdj : ∀ {ks : List String} {a : String},
    a ∈ dedupAdj ks → a ∈ ks := by
  intro ks
  induction ks with
  | nil =>
    intro a ha
    cases ha
  | cons k ks' ih =>
    intro a ha
    cases hd : dedupAdj ks' with
    | nil =>
      rw [dedupAdj_cons_of_nil hd] at ha
      rcases List.mem_cons.mp ha with h | h
      · exact h ▸ List.mem_cons_self _ _
      · cases h
    | cons k' r =>
      rw [dedupAdj_cons_of_cons hd] at ha
      by_cases hk : k = k'
      · rw [if_pos hk] at ha
        exact List.mem_cons_of_mem _ (ih (hd ▸ ha))
      · rw [if_neg hk] at ha
        rcases List.mem_cons.mp ha with h | h
        · exact h ▸ List.mem_cons_self _ _
        · exact List.mem_cons_of_mem _ (ih (hd ▸ h))

theorem mem_dedupAdj_of_mem : ∀ {ks : List String} {a : String},
    a ∈ ks → a ∈ dedupAdj ks := by
  intro ks
  induction ks with
  | nil =>
    intro a ha
    cases ha
  | cons k ks' ih =>
    intro a ha
    cases hd : dedupAdj ks' with
    | nil =>
      rw [dedupAdj_cons_of_nil hd]
      rcases List.mem_cons.mp ha with h | h
      · exact h ▸ List.mem_cons_self _ _
      · have hm := ih h
        rw [hd] at hm
        cases hm
    | cons k' r =>
      rw [dedupAdj_cons_of_cons hd]
      by_cases hk : k = k'
      · rw [if_pos hk]
        rcases List.mem_cons.mp ha with h | h
        · rw [h, hk]
          exact List.mem_cons_self _ _
        · exact hd ▸ ih h
      · rw [if_neg hk]
        rcases List.mem_cons.mp ha with h | h
        · exact h ▸ List.mem_cons_self _ _
        · exact List.mem_cons_of_mem _ (hd ▸ ih h)

theorem sLt_of_sLe_of_sLt {a b c : String} (h1 : sLe a b) (h2 : sLt b c) : sLt a c := by
  rcases Decidable.em (sLt a c) with h | h
  · exact h
  · exfalso
    have hca : sLe c a := sLe_iff_not_sLt.mpr (fun hac => h hac)
    have hcb : sLe c b := sLe_trans hca h1
    exact (sLt_iff_not_sLe.mp h2) hcb

/-- On a key-sorted stream the distinct keys are strictly increasing. -/
theorem dedupAdj_sorted_strict : ∀ s : List Tup, List.Sorted keyLe s →
    List.Pairwise sLt (dedupAdj (s.map tKey)) := by
  intro s
  induction s with
  | nil =>
    intro _
    exact List.Pairwise.nil
  | cons t ts ih =>
    intro hs
    have hts : List.Sorted keyLe ts := (List.sorted_cons.mp hs).2
    have hall : ∀ u ∈ ts, sLe (tKey t) (tKey u) := (List.sorted_cons.mp hs).1
    have ihp := ih hts
    simp only [List.map_cons]
    cases hd : dedupAdj (ts.map tKey) with
    | nil =>
      rw [dedupAdj_cons_of_nil hd]
      simp
    | cons k ks' =>
      rw [hd] at ihp
      rw [dedupAdj_cons_of_cons hd]
      by_cases hk : tKey t = k
      · rw [if_pos hk]
        exact ihp
      · rw [if_neg hk]
        have hkmem : k ∈ ts.map tKey := mem_of_mem_dedupAdj (hd ▸ List.mem_cons_self k ks')
        obtain ⟨u, hu, hku⟩ := List.mem_map.mp hkmem
        have htk : sLe (tKey t) k := hku ▸ hall u hu
        have htklt : sLt (tKey t) k := sLt_of_sLe_of_ne htk hk
        refine List.Pairwise.cons ?_ ihp
        intro k'' hk''
        rcases List.mem_cons.mp hk'' with h | h
        · exact h ▸ htklt
        · have hkk : sLt k k'' := (List.pairwise_cons.mp ihp).1 k'' h
          exact sLt_of_sLe_of_sLt htk hkk

/-! ## The run decomposition of a sorted stream -/

/-- On a key-sorted stream, the groups formed by `groupby` are exactly: one
group per distinct key, in order, holding the key's tuples in stream
order. -/
theorem groupRuns_sorted_eq : ∀ s : List Tup, List.Sorted keyLe s →
    groupRuns s = (dedupAdj (s.map tKey)).map (fun k => (k, s.filter (keyFilt k))) := by
  intro s
  induction s with
  | nil =>
    intro _
    rfl
  | cons t ts ih =>
    intro hs
    have hts : List.Sorted keyLe ts := (List.sorted_cons.mp hs).2
    have hall : ∀ u ∈ ts, sLe (tKey t) (tKey u) := (List.sorted_cons.mp hs).1
    have ihe := ih hts
    simp only [List.map_cons]
    cases hD : dedupAdj (ts.map tKey) with
    | nil =>
      have hts_nil : ts = [] := by
        cases ts with
        | nil => rfl
        | cons u ts2 =>
          exfalso
          have hmem : tKey u ∈ dedupAdj ((u :: ts2).map tKey) :=
            mem_dedupAdj_of_mem (by simp)
          rw [hD] at hmem
          cases hmem
      subst hts_nil
      rw [groupRuns_cons_of_nil (show groupRuns [] = [] from rfl) t,
        dedupAdj_cons_of_nil hD]
      simp [keyFilt]
    | cons k0 D' =>
      rw [hD] at ihe
      have hgr : groupRuns ts
          = (k0, ts.filter (keyFilt k0)) :: D'.map (fun k => (k, ts.filter (keyFilt k))) := by
        rw [ihe]
        rfl
      have hstrict := dedupAdj_sorted_strict ts hts
      rw [hD] at hstrict
      have hD'ne : ∀ k' ∈ D', sLt k0 k' := (List.pairwise_cons.mp hstrict).1
      have hk0mem : k0 ∈ ts.map tKey := mem_of_mem_dedupAdj (hD ▸ List.mem_cons_self k0 D')
      obtain ⟨u, hu, hku⟩ := List.mem_map.mp hk0mem
      have htk0 : sLe (tKey t) k0 := hku ▸ hall u hu
      by_cases hk : tKey t = k0
      · rw [groupRuns_cons_of_cons hgr, if_pos hk, dedupAdj_cons_of_cons hD, if_pos hk]
        simp only [List.map_cons]
        have hfilt : (t :: ts).filter (keyFilt k0) = t :: ts.filter (keyFilt k0) :=
          List.filter_cons_of_pos (by simp [keyFilt, hk])
        rw [hfilt]
        congr 1
        apply List.map_congr_left
        intro k' hk'
        have hne : tKey t ≠ k' := by
          intro he
          have := hD'ne k' hk'
          rw [← he, hk] at this
          exact sLt_irrefl _ (hk ▸ this)
        rw [List.filter_cons_of_neg (by simp [keyFilt, hne])]
      · rw [groupRuns_cons_of_cons hgr, if_neg hk, dedupAdj_cons_of_cons hD, if_neg hk]
        simp only [List.map_cons]
        have h1 : (t :: ts).filter (keyFilt (tKey t)) = [t] := by
          rw [List.filter_cons_of_pos (by simp [keyFilt])]
          rw [List.filter_eq_nil_iff.mpr ?none]
          case none =>
            intro u' hu'
            simp only [keyFilt, beq_iff_eq]
            intro he
            cases ts with
            | nil => cases hu'
            | cons u0 ts2 =>
              have hu0 : k0 = tKey u0 := by
                obtain ⟨g0, rest0, hgr0⟩ := groupRuns_head_key u0 ts2
                rw [hgr0] at hgr
                injection hgr with hpair _
                injection hpair with hh _
                exact hh.symm
              have hle1 : sLe (tKey u0) (tKey u') := sorted_head_le hts u' hu'
              rw [he] at hle1
              have hle2 : sLe (tKey t) (tKey u0) := hall u0 (List.mem_cons_self _ _)
              have heq : tKey t = tKey u0 := sLe_antisymm hle2 hle1
              rw [hu0] at hk
              exact hk heq
        rw [h1]
        have h2 : (t :: ts).filter (keyFilt k0) = ts.filter (keyFilt k0) :=
          List.filter_cons_of_neg (by simp [keyFilt, hk])
        rw [h2]
        congr 1
        congr 1
        apply List.map_congr_left
        intro k' hk'
        have hne : tKey t ≠ k' := by
          intro he
          have hlt := hD'ne k' hk'
          have := sLt_of_sLe_of_sLt htk0 hlt
          rw [← he] at this
          exact sLt_irrefl _ this
        rw [List.filter_cons_of_neg (by simp [keyFilt, hne])]

theorem optMap_map {β γ δ : Type} (f : γ → Option δ) (g : β → γ) :
    ∀ l : List β, optMap f (l.map g) = optMap (fun b => f (g b)) l := by
  intro l
  induction l with
  | nil => rfl
  | cons a r ih => simp [optMap, ih]

/-- `do_convert` on a key-sorted stream: one record per distinct key, in
key order, each the fold of the key's tuples (in stream order) over the
constructor's seed. -/
theorem do_convert_sorted_eq (construct : String → Rec) (s : List Tup)
    (hs : List.Sorted keyLe s) :
    do_convert construct s
      = optMap (fun k => optFold applyTuple (construct k) (s.filter (keyFilt k)))
          (dedupAdj (s.map tKey)) := by
  unfold do_convert
  rw [groupRuns_sorted_eq s hs, optMap_map]

/-! ## Two sorted streams with the same per-key tuples are equal -/

theorem key_mem_of_filter_cons (p : Tup → Bool) {l : List Tup} {x : Tup} {xs : List Tup}
    (h : l.filter p = x :: xs) : x ∈ l := by
  have : x ∈ l.filter p := by
    rw [h]
    exact List.mem_cons_self _ _
  exact List.mem_of_mem_filter this

theorem sorted_eq_of_filters_eq : ∀ s₁ s₂ : List Tup,
    List.Sorted keyLe s₁ → List.Sorted keyLe s₂ →
    (∀ k, s₁.filter (keyFilt k) = s₂.filter (keyFilt k)) → s₁ = s₂ := by
  intro s₁
  induction s₁ with
  | nil =>
    intro s₂ _ _ hf
    cases s₂ with
    | nil => rfl
    | cons u r₂ =>
      exfalso
      have h := (hf (tKey u)).symm
      rw [List.filter_cons_of_pos (by simp [keyFilt])] at h
      simp at h
  | cons t r₁ ih =>
    intro s₂ hs₁ hs₂ hf
    cases s₂ with
    | nil =>
      exfalso
      have h := hf (tKey t)
      rw [List.filter_cons_of_pos (by simp [keyFilt])] at h
      simp at h
    | cons u r₂ =>
      have ht : (t :: r₁).filter (keyFilt (tKey t)) = t :: r₁.filter (keyFilt (tKey t)) :=
        List.filter_cons_of_pos (by simp [keyFilt])
      have hu : (u :: r₂).filter (keyFilt (tKey u)) = u :: r₂.filter (keyFilt (tKey u)) :=
        List.filter_cons_of_pos (by simp [keyFilt])
      have htmem : t ∈ u :: r₂ := by
        apply key_mem_of_filter_cons (keyFilt (tKey t))
        rw [← hf (tKey t), ht]
      have humem : u ∈ t :: r₁ := by
        apply key_mem_of_filter_cons (keyFilt (tKey u))
        rw [hf (tKey u), hu]
      have hle1 : sLe (tKey u) (tKey t) := sorted_head_le hs₂ t htmem
      have hle2 : sLe (tKey t) (tKey u) := sorted_head_le hs₁ u humem
      have hkey : tKey t = tKey u := sLe_antisymm hle2 hle1
      have hfu : (u :: r₂).filter (keyFilt (tKey t)) = u :: r₂.filter (keyFilt (tKey t)) :=
        List.filter_cons_of_pos (by simp [keyFilt, hkey.symm])
      have hhead := hf (tKey t)
      rw [ht, hfu] at hhead
      injection hhead with htu htail
      subst htu
      congr 1
      apply ih r₂ (List.sorted_cons.mp hs₁).2 (List.sorted_cons.mp hs₂).2
      intro k
      by_cases hkt : keyFilt k t = true
      · have hkk : tKey t = k := by simpa [keyFilt] using hkt
        have h := hf k
        rw [List.filter_cons_of_pos hkt, List.filter_cons_of_pos hkt] at h
        injection h
      · have h := hf k
        rw [List.filter_cons_of_neg (by simp_all), List.filter_cons_of_neg (by simp_all)] at h
        exact h

/-! ## The folding rules of the assembler -/

theorem applyTuple_store (r : Rec) (k f : String) (v : Val) :
    applyTuple r (k, STORE, f, v) = some (dictSet r f v) := rfl

theorem applyTuple_append_absent (r : Rec) (k f : String) (v : Val)
    (h : dictGet r f = none) :
    applyTuple r (k, APPEND, f, v) = some (dictSet r f (Val.arr [v])) := by
  simp [applyTuple, tMix, tField, tVal, STORE, APPEND, h]

theorem applyTuple_append_list (r : Rec) (k f : String) (v : Val) (l : List Val)
    (h : dictGet r f = some (Val.arr l)) :
    applyTuple r (k, APPEND, f, v) = some (dictSet r f (Val.arr (l ++ [v]))) := by
  simp [applyTuple, tMix, tField, tVal, STORE, APPEND, h]

/-! ## Round-robin multiplexer lemmas -/

theorem roundrobinF_succ_of_nil {α : Type} (n : Nat) (ls : List (List α))
    (h : ls.filter (fun l => !l.isEmpty) = []) : roundrobinF (n + 1) ls = [] := by
  simp only [roundrobinF, h]

theorem roundrobinF_succ_of_cons {α : Type} (n : Nat) (ls : List (List α))
    (a : List α) (rest : List (List α))
    (h : ls.filter (fun l => !l.isEmpty) = a :: rest) :
    roundrobinF (n + 1) ls
      = (a :: rest).filterMap (fun l => l.head?)
        ++ roundrobinF n ((a :: rest).map (fun l => l.drop 1)) := by
  simp only [roundrobinF, h]

theorem mem_filter_nonempty_ne_nil {α : Type} {ls : List (List α)} {l : List α}
    (h : l ∈ ls.filter (fun l => !l.isEmpty)) : l ≠ [] := by
  have hm := List.of_mem_filter h
  intro e
  subst e
  simp at hm

theorem sum_len_filter_le {α : Type} (ls : List (List α)) :
    ((ls.filter (fun l => !l.isEmpty)).map List.length).sum ≤ (ls.map List.length).sum := by
  induction ls with
  | nil => simp
  | cons a as ih =>
    simp only [List.filter_cons, List.map_cons, List.sum_cons]
    by_cases h : a.isEmpty = true
    · rw [if_neg (by simp [h])]
      omega
    · rw [if_pos (by simp [h])]
      simp only [List.map_cons, List.sum_cons]
      omega

theorem drop1_sum_lt {α : Type} {live : List (List α)} (hne : live ≠ [])
    (hall : ∀ l ∈ live, l ≠ []) :
    ((live.map (fun l => l.drop 1)).map List.length).sum < (live.map List.length).sum := by
  induction live with
  | nil => exact absurd rfl hne
  | cons a as ih =>
    have ha : a ≠ [] := hall a (List.mem_cons_self _ _)
    have h1 : (a.drop 1).length < a.length := by
      cases a with
      | nil => exact absurd rfl ha
      | cons x xs => simp
    by_cases has : as = []
    · subst has
      simpa using h1
    · have h2 := ih has (fun l hl => hall l (List.mem_cons_of_mem _ hl))
      simp only [List.map_cons, List.sum_cons] at h2 ⊢
      omega

theorem sum_len_zero_all_nil' {α : Type} {ls : List (List α)}
    (h : (ls.map List.length).sum = 0) : ∀ l ∈ ls, l = [] := by
  intro l hl
  apply List.eq_nil_of_length_eq_zero
  induction ls with
  | nil => cases hl
  | cons a rest ih =>
    simp only [List.map_cons, List.sum_cons] at h
    rcases List.mem_cons.mp hl with h' | h'
    · subst h'
      omega
    · exact ih (by omega) h'

theorem flatten_filter_nonempty {α : Type} :
    ∀ ls : List (List α), (ls.filter (fun l => !l.isEmpty)).flatten = ls.flatten := by
  intro ls
  induction ls with
  | nil => rfl
  | cons a rest ih =>
    cases a with
    | nil => simpa [List.filter_cons] using ih
    | cons x xs => simpa [List.filter_cons] using ih

theorem heads_tails_perm {α : Type} : ∀ live : List (List α), (∀ l ∈ live, l ≠ []) →
    List.Perm
      (live.filterMap (fun l => l.head?) ++ (live.map (fun l => l.drop 1)).flatten)
      live.flatten := by
  intro live
  induction live with
  | nil =>
    intro _
    exact List.Perm.refl _
  | cons a rest ih =>
    intro hall
    cases a with
    | nil => exact absurd rfl (hall [] (List.mem_cons_self _ _))
    | cons x xs =>
      have ihp := ih (fun l hl => hall l (List.mem_cons_of_mem _ hl))
      simp only [List.drop_one] at ihp
      simp only [List.filterMap_cons, List.head?_cons, List.map_cons, List.flatten_cons,
        List.drop_one, List.tail_cons, List.cons_append]
      apply List.Perm.cons x
      rw [← List.append_assoc]
      apply List.Perm.trans (List.Perm.append_right _ List.perm_append_comm)
      rw [List.append_assoc]
      exact List.Perm.append_left xs ihp

theorem roundrobinF_perm {α : Type} : ∀ (n : Nat) (ls : List (List α)),
    (ls.map List.length).sum ≤ n → List.Perm (roundrobinF n ls) ls.flatten := by
  intro n
  induction n with
  | zero =>
    intro ls hn
    have hall := sum_len_zero_all_nil' (Nat.le_zero.mp hn)
    have hfl : ls.flatten = [] := List.flatten_eq_nil_iff.mpr hall
    rw [hfl]
    exact List.Perm.refl _
  | succ m ih =>
    intro ls hn
    cases hlive : ls.filter (fun l => !l.isEmpty) with
    | nil =>
      rw [roundrobinF_succ_of_nil m ls hlive]
      have hall : ∀ l ∈ ls, l = [] := by
        intro l hl
        by_cases he : l.isEmpty
        · exact List.isEmpty_iff.mp he
        · exfalso
          have : l ∈ ls.filter (fun l => !l.isEmpty) :=
            List.mem_filter.mpr ⟨hl, by simp [he]⟩
          rw [hlive] at this
          cases this
      have hfl : ls.flatten = [] := List.flatten_eq_nil_iff.mpr hall
      rw [hfl]
    | cons a rest =>
      rw [roundrobinF_succ_of_cons m ls a rest hlive]
      have hall : ∀ l ∈ a :: rest, l ≠ [] := by
        intro l hl
        exact mem_filter_nonempty_ne_nil (hlive ▸ hl)
      have hdec : (((a :: rest).map (fun l => l.drop 1)).map List.length).sum ≤ m := by
        have h1 := drop1_sum_lt (List.cons_ne_nil a rest) hall
        have h2 := sum_len_filter_le ls
        rw [hlive] at h2
        omega
      have hrec := ih ((a :: rest).map (fun l => l.drop 1)) hdec
      apply List.Perm.trans (List.Perm.append_left _ hrec)
      apply List.Perm.trans (heads_tails_perm (a :: rest) hall)
      rw [← hlive, flatten_filter_nonempty]

theorem roundrobinF_sublist {α : Type} : ∀ (n : Nat) (ls : List (List α)) (l : List α),
    (ls.map List.length).sum ≤ n → l ∈ ls → l.Sublist (roundrobinF n ls) := by
  intro n
  induction n with
  | zero =>
    intro ls l hn hl
    have hall := sum_len_zero_all_nil' (Nat.le_zero.mp hn)
    rw [hall l hl]
    exact List.nil_sublist _
  | succ m ih =>
    intro ls l hn hl
    cases hl0 : l with
    | nil => exact List.nil_sublist _
    | cons x xs =>
      subst hl0
      have hlmem : (x :: xs) ∈ ls.filter (fun l => !l.isEmpty) :=
        List.mem_filter.mpr ⟨hl, by simp⟩
      cases hlive : ls.filter (fun l => !l.isEmpty) with
      | nil =>
        rw [hlive] at hlmem
        cases hlmem
      | cons a rest =>
        rw [roundrobinF_succ_of_cons m ls a rest hlive]
        rw [hlive] at hlmem
        have hall : ∀ l' ∈ a :: rest, l' ≠ [] := by
          intro l' hl'
          exact mem_filter_nonempty_ne_nil (hlive ▸ hl')
        have hdec : (((a :: rest).map (fun l => l.drop 1)).map List.length).sum ≤ m := by
          have h1 := drop1_sum_lt (List.cons_ne_nil a rest) hall
          have h2 := sum_len_filter_le ls
          rw [hlive] at h2
          omega
        obtain ⟨L1, L2, hsplit⟩ := List.append_of_mem hlmem
        have hxs_mem : xs ∈ (a :: rest).map (fun l => l.drop 1) := by
          rw [hsplit]
          simp only [List.map_append, List.map_cons]
          exact List.mem_append_right _ (by simp)
        have hxs_sub : xs.Sublist (roundrobinF m ((a :: rest).map (fun l => l.drop 1))) :=
          ih _ xs hdec hxs_mem
        have hheads : (a :: rest).filterMap (fun l => l.head?)
            = L1.filterMap (fun l => l.head?) ++ x :: L2.filterMap (fun l => l.head?) := by
          rw [hsplit, List.filterMap_append]
          simp
        rw [hheads, List.append_assoc, List.cons_append]
        apply List.Sublist.trans
          (List.Sublist.cons₂ x
            (List.Sublist.trans hxs_sub (List.sublist_append_right _ _)))
        exact List.sublist_append_right _ _

/-! ## Claim theorems -/

/-- Claim C2: the external sort-merge is stable.  For every buffer capacity
`C > 0` (the source fixes `C = _MAX_SORT_BUF`) and every input sequence,
the tuples of any one key leave `rec_sorted` exactly in their arrival
order: the merged stream restricted to a key equals the input restricted
to that key, even when the key's tuples were spilled into different
Ordered Stores.  Hence `APPEND` insertion order within a key is
preserved. -/
theorem c2_external_sort_stable (C : Nat) (hC : 0 < C) (l : List Tup) (k : String) :
    (rec_sorted_gen C l).filter (keyFilt k) = l.filter (keyFilt k) ∧
    (rec_sorted l).filter (keyFilt k) = l.filter (keyFilt k) :=
  ⟨rec_sorted_gen_filter C hC l k,
   rec_sorted_gen_filter _MAX_SORT_BUF (by decide) l k⟩

theorem c2_witness :
    0 < 2 ∧
    ((rec_sorted_gen 2
        [(("b" : String), STORE, "f", Val.int 1), (("a" : String), APPEND, "g", Val.int 2),
         (("b" : String), APPEND, "g", Val.int 3), (("b" : String), STORE, "f", Val.int 4)]).filter
        (keyFilt "b")
      = ([(("b" : String), STORE, "f", Val.int 1), (("a" : String), APPEND, "g", Val.int 2),
          (("b" : String), APPEND, "g", Val.int 3), (("b" : String), STORE, "f", Val.int 4)]).filter
          (keyFilt "b") ∧
     (rec_sorted
        [(("b" : String), STORE, "f", Val.int 1), (("a" : String), APPEND, "g", Val.int 2),
         (("b" : String), APPEND, "g", Val.int 3), (("b" : String), STORE, "f", Val.int 4)]).filter
        (keyFilt "b")
      = ([(("b" : String), STORE, "f", Val.int 1), (("a" : String), APPEND, "g", Val.int 2),
          (("b" : String), APPEND, "g", Val.int 3), (("b" : String), STORE, "f", Val.int 4)]).filter
          (keyFilt "b")) :=
  ⟨by decide, c2_external_sort_stable 2 (by decide) _ "b"⟩

/-- Claim C3: for every capacity and every input, the stream produced by
`rec_sorted` is non-decreasing in key (so equal keys are contiguous), and
the keys of the consecutive runs the assembler's `groupby` forms on it are
strictly increasing — a key is never seen again after its group closes. -/
theorem c3_merged_stream_sorted (C : Nat) (l : List Tup) :
    List.Pairwise keyLe (rec_sorted_gen C l) ∧
    List.Pairwise keyLe (rec_sorted l) ∧
    List.Pairwise sLt ((groupRuns (rec_sorted_gen C l)).map Prod.fst) ∧
    List.Pairwise sLt ((groupRuns (rec_sorted l)).map Prod.fst) := by
  refine ⟨rec_sorted_gen_sorted C l, rec_sorted_gen_sorted _MAX_SORT_BUF l, ?_, ?_⟩
  · rw [groupRuns_keys]
    exact dedupAdj_sorted_strict _ (rec_sorted_gen_sorted C l)
  · rw [groupRuns_keys]
    exact dedupAdj_sorted_strict _ (rec_sorted_gen_sorted _MAX_SORT_BUF l)

theorem c3_witness :
    List.Pairwise keyLe (rec_sorted_gen 2
      [(("b" : String), STORE, "f", Val.int 1), (("a" : String), APPEND, "g", Val.int 2)]) ∧
    List.Pairwise keyLe (rec_sorted
      [(("b" : String), STORE, "f", Val.int 1), (("a" : String), APPEND, "g", Val.int 2)]) ∧
    List.Pairwise sLt ((groupRuns (rec_sorted_gen 2
      [(("b" : String), STORE, "f", Val.int 1),
       (("a" : String), APPEND, "g", Val.int 2)])).map Prod.fst) ∧
    List.Pairwise sLt ((groupRuns (rec_sorted
      [(("b" : String), STORE, "f", Val.int 1),
       (("a" : String), APPEND, "g", Val.int 2)])).map Prod.fst) :=
  c3_merged_stream_sorted 2 _

/-- Claim C5: the chunked sorter with capacity `C > 0` loses nothing (the
stores concatenate back to the input), always flushes a non-empty residual
buffer (so a non-empty run writes at least one store), writes only
non-empty stores of size at most `C` with every non-final store exactly
full, and writes exactly `size / C` stores when the input size is an exact
multiple of `C` — no spurious trailing store.  `rec_sorted` instantiates
this at `C = _MAX_SORT_BUF`. -/
theorem c5_chunked_sorter (C : Nat) (hC : 0 < C) (l : List Tup) :
    (chunks C l).flatten = l ∧
    (l ≠ [] → chunks C l ≠ []) ∧
    (∀ c ∈ chunks C l, c ≠ [] ∧ c.length ≤ C) ∧
    (∀ c ∈ (chunks C l).dropLast, c.length = C) ∧
    (C ∣ l.length → (chunks C l).length = l.length / C) ∧
    rec_sorted l = kmerge ((chunks _MAX_SORT_BUF l).map sortChunk) :=
  ⟨join_chunks C hC l.length l (le_refl _),
   fun h => chunks_ne_nil C hC l h,
   mem_chunks_ne_nil C hC l.length l (le_refl _),
   chunks_dropLast_full C hC l.length l (le_refl _),
   fun hd => length_chunks_dvd C hC l.length l (le_refl _) hd,
   rfl⟩

theorem c5_witness :
    0 < 2 ∧
    ((chunks 2 [(("a" : String), STORE, "f", Val.int 1), (("b" : String), STORE, "f", Val.int 2),
        (("c" : String), STORE, "f", Val.int 3), (("d" : String), STORE, "f", Val.int 4)]).flatten
      = [(("a" : String), STORE, "f", Val.int 1), (("b" : String), STORE, "f", Val.int 2),
         (("c" : String), STORE, "f", Val.int 3), (("d" : String), STORE, "f", Val.int 4)] ∧
     ([(("a" : String), STORE, "f", Val.int 1), (("b" : String), STORE, "f", Val.int 2),
       (("c" : String), STORE, "f", Val.int 3), (("d" : String), STORE, "f", Val.int 4)] ≠ [] →
      chunks 2 [(("a" : String), STORE, "f", Val.int 1), (("b" : String), STORE, "f", Val.int 2),
        (("c" : String), STORE, "f", Val.int 3), (("d" : String), STORE, "f", Val.int 4)] ≠ []) ∧
     (∀ c ∈ chunks 2 [(("a" : String), STORE, "f", Val.int 1),
        (("b" : String), STORE, "f", Val.int 2), (("c" : String), STORE, "f", Val.int 3),
        (("d" : String), STORE, "f", Val.int 4)], c ≠ [] ∧ c.length ≤ 2) ∧
     (∀ c ∈ (chunks 2 [(("a" : String), STORE, "f", Val.int 1),
        (("b" : String), STORE, "f", Val.int 2), (("c" : String), STORE, "f", Val.int 3),
        (("d" : String), STORE, "f", Val.int 4)]).dropLast, c.length = 2) ∧
     (2 ∣ ([(("a" : String), STORE, "f", Val.int 1), (("b" : String), STORE, "f", Val.int 2),
        (("c" : String), STORE, "f", Val.int 3),
        (("d" : String), STORE, "f", Val.int 4)] : List Tup).length →
      (chunks 2 [(("a" : String), STORE, "f", Val.int 1), (("b" : String), STORE, "f", Val.int 2),
        (("c" : String), STORE, "f", Val.int 3),
        (("d" : String), STORE, "f", Val.int 4)]).length
        = ([(("a" : String), STORE, "f", Val.int 1), (("b" : String), STORE, "f", Val.int 2),
           (("c" : String), STORE, "f", Val.int 3),
           (("d" : String), STORE, "f", Val.int 4)] : List Tup).length / 2) ∧
     rec_sorted [(("a" : String), STORE, "f", Val.int 1), (("b" : String), STORE, "f", Val.int 2),
        (("c" : String), STORE, "f", Val.int 3), (("d" : String), STORE, "f", Val.int 4)]
      = kmerge ((chunks _MAX_SORT_BUF
          [(("a" : String), STORE, "f", Val.int 1), (("b" : String), STORE, "f", Val.int 2),
           (("c" : String), STORE, "f", Val.int 3),
           (("d" : String), STORE, "f", Val.int 4)]).map sortChunk)) :=
  ⟨by decide, c5_chunked_sorter 2 (by decide) _⟩

/-- Claim C8: the multiplexer yields every element of every adapter
sequence exactly once (its output is a permutation of their concatenation,
and it ends exactly when all are exhausted), and preserves each adapter's
internal order (each input sequence is a subsequence of the output);
rounds visit the surviving sequences in order, skipping exhausted ones. -/
theorem c8_roundrobin_multiplexer {α : Type} (ls : List (List α)) :
    List.Perm (roundrobin ls) ls.flatten ∧ ∀ l ∈ ls, l.Sublist (roundrobin ls) :=
  ⟨roundrobinF_perm _ ls (le_refl _),
   fun l hl => roundrobinF_sublist _ ls l (le_refl _) hl⟩

theorem c8_witness :
    List.Perm (roundrobin [[1, 2], [3], [4, 5]]) ([[1, 2], [3], [4, 5]] : List (List Nat)).flatten ∧
    ∀ l ∈ ([[1, 2], [3], [4, 5]] : List (List Nat)), l.Sublist (roundrobin [[1, 2], [3], [4, 5]]) :=
  c8_roundrobin_multiplexer [[1, 2], [3], [4, 5]]

/-- Claim C4 (counterexample): the scenario strings as the spec writes
them do not behave as claimed.  `"Inception" (2010)` — with the quotes the
spec prints — matches the quoted-series form and classifies as `series`,
not `movie`; and `"Show" (2010){Pilot (#1.1)}` — with no whitespace before
the brace block, as the spec prints it — matches nothing (`TID_PAT`
requires `\s+` before `{`), so the record carries only the raw key. -/
theorem c4_counterexample :
    dictGet (construct_title "\"Inception\" (2010)") "kind" = some (Val.str "series") ∧
    (some (Val.str "series") : Option Val) ≠ some (Val.str "movie") ∧
    construct_title "\"Show\" (2010)\x7bPilot (#1.1)\x7d"
      = [("id", Val.str "\"Show\" (2010)\x7bPilot (#1.1)\x7d")] :=
  ⟨rfl, by simp, rfl⟩

/-- Claim C4 (amended): classifying the unquoted `Inception (2010)` yields
`kind=movie`; the quoted `"Show" (2010) {Pilot (#1.1)}` — with the
mandatory whitespace before the brace block — yields `kind=episode` with
`season=1`, `episode=1`; the quoted `"Show" (2010)` alone yields
`kind=series`; and a string matching neither grammar form yields a record
carrying only the raw key. -/
theorem c4_amended :
    dictGet (construct_title "Inception (2010)") "kind" = some (Val.str "movie") ∧
    dictGet (construct_title "\"Show\" (2010) \x7bPilot (#1.1)\x7d") "kind"
      = some (Val.str "episode") ∧
    dictGet (construct_title "\"Show\" (2010) \x7bPilot (#1.1)\x7d") "episode"
      = some (Val.obj [("title", Val.str "Pilot"), ("season", Val.int 1),
          ("episode", Val.int 1)]) ∧
    dictGet (construct_title "\"Show\" (2010)") "kind" = some (Val.str "series") ∧
    construct_title "unmatched" = [("id", Val.str "unmatched")] :=
  ⟨rfl, rfl, rfl, rfl, rfl⟩

/-- Claim C7 (counterexample): the three trailing markers are three
independent optional groups, so an identifier carrying more than one of
them is accepted: `X (2010) (TV) (V)` matches with both the `tv` and the
`video` group set (and classifies as `tv-movie`), refuting "at most
one". -/
theorem c7_counterexample :
    tidMatch "X (2010) (TV) (V)"
      = some ⟨none, false, none, EpiNum.nonum, some "X".data, true, true, false, false⟩ ∧
    dictGet (construct_title "X (2010) (TV) (V)") "kind" = some (Val.str "tv-movie") :=
  ⟨rfl, rfl⟩

/-- Claim C7 (amended): in the non-series form the markers `(TV)`, `(V)`,
`(VG)` are each optional (in that order), so any subset may be present;
`kind` is decided by priority — `tv-movie` if `(TV)` matched, else `video`
if `(V)`, else `videogame` if `(VG)`, else `movie`. -/
theorem c7_markers_amended (id : String) (g : TidGroups) (h : tidMatch id = some g)
    (hns : g.series = none) :
    (dictGet (construct_title id) "kind"
      = some (Val.str (if g.tv then "tv-movie" else if g.video then "video"
          else if g.videogame then "videogame" else "movie"))) ∧
    dictGet (construct_title "X (2010) (TV) (V) (VG)") "kind" = some (Val.str "tv-movie") ∧
    dictGet (construct_title "X (2010)") "kind" = some (Val.str "movie") ∧
    dictGet (construct_title "X (2010) (V)") "kind" = some (Val.str "video") ∧
    dictGet (construct_title "X (2010) (VG)") "kind" = some (Val.str "videogame") ∧
    dictGet (construct_title "X (2010) (TV)") "kind" = some (Val.str "tv-movie") := by
  refine ⟨?_, rfl, rfl, rfl, rfl, rfl⟩
  obtain ⟨ser, epi, tit, num, ns, tv, v, vg, sus⟩ := g
  simp only at hns
  subst hns
  unfold construct_title
  rw [h]
  dsimp only
  cases tv <;> cases v <;> cases vg <;> cases sus <;> simp [dictGet, dictSet]

theorem c7_witness :
    tidMatch "X (2010) (V)"
      = some ⟨none, false, none, EpiNum.nonum, some "X".data, false, true, false, false⟩ ∧
    ((dictGet (construct_title "X (2010) (V)") "kind"
      = some (Val.str (if (false : Bool) then "tv-movie" else if (true : Bool) then "video"
          else if (false : Bool) then "videogame" else "movie"))) ∧
     dictGet (construct_title "X (2010) (TV) (V) (VG)") "kind" = some (Val.str "tv-movie") ∧
     dictGet (construct_title "X (2010)") "kind" = some (Val.str "movie") ∧
     dictGet (construct_title "X (2010) (V)") "kind" = some (Val.str "video") ∧
     dictGet (construct_title "X (2010) (VG)") "kind" = some (Val.str "videogame") ∧
     dictGet (construct_title "X (2010) (TV)") "kind" = some (Val.str "tv-movie")) :=
  ⟨rfl, c7_markers_amended "X (2010) (V)"
    ⟨none, false, none, EpiNum.nonum, some "X".data, false, true, false, false⟩ rfl rfl⟩

/-- Claim C9: whenever the classifier's record carries an `episode`
sub-record, that sub-record has `season` exactly when it has `episode`,
has `year`, `month` and `day` all together or not at all, and never
carries both a season/episode pair and an air date. -/
theorem c9_episode_invariants (id : String) (e : Rec)
    (h : dictGet (construct_title id) "episode" = some (Val.obj e)) :
    ((dictGet e "season").isSome ↔ (dictGet e "episode").isSome) ∧
    ((dictGet e "year").isSome ↔ (dictGet e "month").isSome) ∧
    ((dictGet e "year").isSome ↔ (dictGet e "day").isSome) ∧
    ¬((dictGet e "season").isSome ∧ (dictGet e "year").isSome) := by
  unfold construct_title at h
  cases hm : tidMatch id with
  | none =>
    rw [hm] at h
    simp [dictGet] at h
  | some g =>
    obtain ⟨ser, epi, tit, num, ns, tv, v, vg, sus⟩ := g
    rw [hm] at h
    dsimp only at h
    cases ser with
    | none =>
      cases tv <;> cases v <;> cases vg <;> cases sus <;>
        simp [dictGet, dictSet] at h
    | some s =>
      cases epi with
      | false =>
        cases sus <;> simp [dictGet, dictSet] at h
      | true =>
        cases sus <;> simp [dictGet, dictSet] at h <;>
          · subst h
            cases tit <;> cases num <;> simp [buildEpisode, dictGet]

theorem c9_witness :
    dictGet (construct_title "\"Show\" (2010) \x7bPilot (#1.1)\x7d") "episode"
      = some (Val.obj [("title", Val.str "Pilot"), ("season", Val.int 1),
          ("episode", Val.int 1)]) ∧
    (((dictGet [("title", Val.str "Pilot"), ("season", Val.int 1), ("episode", Val.int 1)]
        "season").isSome
      ↔ (dictGet [("title", Val.str "Pilot"), ("season", Val.int 1), ("episode", Val.int 1)]
        "episode").isSome) ∧
     ((dictGet [("title", Val.str "Pilot"), ("season", Val.int 1), ("episode", Val.int 1)]
        "year").isSome
      ↔ (dictGet [("title", Val.str "Pilot"), ("season", Val.int 1), ("episode", Val.int 1)]
        "month").isSome) ∧
     ((dictGet [("title", Val.str "Pilot"), ("season", Val.int 1), ("episode", Val.int 1)]
        "year").isSome
      ↔ (dictGet [("title", Val.str "Pilot"), ("season", Val.int 1), ("episode", Val.int 1)]
        "day").isSome) ∧
     ¬((dictGet [("title", Val.str "Pilot"), ("season", Val.int 1), ("episode", Val.int 1)]
        "season").isSome ∧
       (dictGet [("title", Val.str "Pilot"), ("season", Val.int 1), ("episode", Val.int 1)]
        "year").isSome)) :=
  ⟨rfl, c9_episode_invariants "\"Show\" (2010) \x7bPilot (#1.1)\x7d"
    [("title", Val.str "Pilot"), ("season", Val.int 1), ("episode", Val.int 1)] rfl⟩

/-- Claim C10: key comparison throughout the pipeline is the raw
case-sensitive code-point order Python uses on `str`.  Keys differing only
in case are distinct, yield two separate records, and are emitted in
code-point order (`"A"` before `"a"` since 65 < 97); in general the
emitted group keys are strictly increasing in that order. -/
theorem c10_codepoint_order (C : Nat) (l : List Tup) :
    sLt "A" "a" ∧ ("A" : String) ≠ "a" ∧
    do_convert construct_title (rec_sorted [(("a" : String), STORE, "x", Val.int 1),
      (("A" : String), STORE, "x", Val.int 2)])
      = some [[("id", Val.str "A"), ("x", Val.int 2)], [("id", Val.str "a"), ("x", Val.int 1)]] ∧
    List.Pairwise sLt ((groupRuns (rec_sorted_gen C l)).map Prod.fst) := by
  refine ⟨by decide, by decide, rfl, ?_⟩
  rw [groupRuns_keys]
  exact dedupAdj_sorted_strict _ (rec_sorted_gen_sorted C l)

theorem c10_witness :
    sLt "A" "a" ∧ ("A" : String) ≠ "a" ∧
    do_convert construct_title (rec_sorted [(("a" : String), STORE, "x", Val.int 1),
      (("A" : String), STORE, "x", Val.int 2)])
      = some [[("id", Val.str "A"), ("x", Val.int 2)], [("id", Val.str "a"), ("x", Val.int 1)]] ∧
    List.Pairwise sLt ((groupRuns (rec_sorted_gen 2
      ([] : List Tup))).map Prod.fst) :=
  c10_codepoint_order 2 []

/-- Claim C1: on a globally key-sorted tuple stream, `do_convert`'s
assembler emits exactly one record per distinct key, strictly in key order
(the distinct keys are strictly increasing, so a key is never revisited,
and every input tuple's key is represented); each record is the fold, in
stream order, of the key's tuples over the constructor's seed; a `STORE`
tuple overwrites the field with its value, an `APPEND` tuple appends to
the field's list, creating it when the field is absent; and when
classification of a title key fails the seed is only the raw key. -/
theorem c1_assembler_fold (construct : String → Rec) (s : List Tup)
    (hs : List.Sorted keyLe s) :
    (do_convert construct s
      = optMap (fun k => optFold applyTuple (construct k) (s.filter (keyFilt k)))
          (dedupAdj (s.map tKey))) ∧
    List.Pairwise sLt (dedupAdj (s.map tKey)) ∧
    (∀ t ∈ s, tKey t ∈ dedupAdj (s.map tKey)) ∧
    (∀ r : Rec, ∀ k0 f : String, ∀ v : Val,
      applyTuple r (k0, STORE, f, v) = some (dictSet r f v) ∧
      dictGet (dictSet r f v) f = some v) ∧
    (∀ r : Rec, ∀ k0 f : String, ∀ v : Val, dictGet r f = none →
      applyTuple r (k0, APPEND, f, v) = some (dictSet r f (Val.arr [v]))) ∧
    (∀ r : Rec, ∀ k0 f : String, ∀ v : Val, ∀ vl : List Val,
      dictGet r f = some (Val.arr vl) →
      applyTuple r (k0, APPEND, f, v) = some (dictSet r f (Val.arr (vl ++ [v])))) ∧
    (∀ id : String, tidMatch id = none → construct_title id = [("id", Val.str id)]) := by
  refine ⟨do_convert_sorted_eq construct s hs, dedupAdj_sorted_strict s hs, ?_, ?_, ?_, ?_, ?_⟩
  · intro t ht
    exact mem_dedupAdj_of_mem (List.mem_map.mpr ⟨t, ht, rfl⟩)
  · intro r k0 f v
    exact ⟨applyTuple_store r k0 f v, dictGet_dictSet_same r f v⟩
  · intro r k0 f v hnone
    exact applyTuple_append_absent r k0 f v hnone
  · intro r k0 f v vl hl
    exact applyTuple_append_list r k0 f v vl hl
  · intro id h
    simp [construct_title, h]

theorem c1_witness :
    List.Sorted keyLe
      [(("A" : String), STORE, "year", Val.int 1999),
       (("A" : String), APPEND, "tag", Val.str "y"),
       (("B" : String), APPEND, "tag", Val.str "x")] ∧
    ((do_convert construct_title
        [(("A" : String), STORE, "year", Val.int 1999),
         (("A" : String), APPEND, "tag", Val.str "y"),
         (("B" : String), APPEND, "tag", Val.str "x")]
      = optMap (fun k => optFold applyTuple (construct_title k)
          (([(("A" : String), STORE, "year", Val.int 1999),
             (("A" : String), APPEND, "tag", Val.str "y"),
             (("B" : String), APPEND, "tag", Val.str "x")]).filter (keyFilt k)))
          (dedupAdj (([(("A" : String), STORE, "year", Val.int 1999),
             (("A" : String), APPEND, "tag", Val.str "y"),
             (("B" : String), APPEND, "tag", Val.str "x")]).map tKey))) ∧
     List.Pairwise sLt (dedupAdj (([(("A" : String), STORE, "year", Val.int 1999),
         (("A" : String), APPEND, "tag", Val.str "y"),
         (("B" : String), APPEND, "tag", Val.str "x")]).map tKey)) ∧
     (∀ t ∈ [(("A" : String), STORE, "year", Val.int 1999),
         (("A" : String), APPEND, "tag", Val.str "y"),
         (("B" : String), APPEND, "tag", Val.str "x")],
       tKey t ∈ dedupAdj (([(("A" : String), STORE, "year", Val.int 1999),
         (("A" : String), APPEND, "tag", Val.str "y"),
         (("B" : String), APPEND, "tag", Val.str "x")]).map tKey)) ∧
     (∀ r : Rec, ∀ k0 f : String, ∀ v : Val,
       applyTuple r (k0, STORE, f, v) = some (dictSet r f v) ∧
       dictGet (dictSet r f v) f = some v) ∧
     (∀ r : Rec, ∀ k0 f : String, ∀ v : Val, dictGet r f = none →
       applyTuple r (k0, APPEND, f, v) = some (dictSet r f (Val.arr [v]))) ∧
     (∀ r : Rec, ∀ k0 f : String, ∀ v : Val, ∀ vl : List Val,
       dictGet r f = some (Val.arr vl) →
       applyTuple r (k0, APPEND, f, v) = some (dictSet r f (Val.arr (vl ++ [v])))) ∧
     (∀ id : String, tidMatch id = none → construct_title id = [("id", Val.str id)])) :=
  ⟨by decide, c1_assembler_fold construct_title _ (by decide)⟩

/-- Claim C6 (counterexample): the output record set is not invariant
under interleaving.  The inputs `[k.f:=1, k.f:=2]` and `[k.f:=2, k.f:=1]`
are permutations of one another — two interleavings of the one-tuple
adapters `[k.f:=1]` and `[k.f:=2]` — yet the pipeline's outputs differ in
the `STORE`-mode field `f` (last arrival wins), not merely in the order of
an `Append` list. -/
theorem c6_counterexample :
    List.Perm
      [(("k" : String), STORE, "f", Val.int 1), (("k" : String), STORE, "f", Val.int 2)]
      [(("k" : String), STORE, "f", Val.int 2), (("k" : String), STORE, "f", Val.int 1)] ∧
    do_convert construct_title (rec_sorted_gen 2
      [(("k" : String), STORE, "f", Val.int 1), (("k" : String), STORE, "f", Val.int 2)])
      = some [[("id", Val.str "k"), ("f", Val.int 2)]] ∧
    do_convert construct_title (rec_sorted_gen 2
      [(("k" : String), STORE, "f", Val.int 2), (("k" : String), STORE, "f", Val.int 1)])
      = some [[("id", Val.str "k"), ("f", Val.int 1)]] ∧
    (some [[("id", Val.str "k"), ("f", Val.int 2)]] : Option (List Rec))
      ≠ some [[("id", Val.str "k"), ("f", Val.int 1)]] :=
  ⟨List.Perm.swap _ _ _, rfl, rfl, by simp⟩

/-- Claim C6 (amended): over any two interleavings (permutations) of the
same tuple multiset the pipeline emits the same keys in the same order,
and each key's record is the fold of the key's tuples in that
interleaving's arrival order; consequently the outputs coincide exactly
when every key's arrival sequence coincides — what can differ is only
what arrival order decides: `Append` list order and the surviving value
of duplicate `STORE`s to one field. -/
theorem c6_amended_interleaving (construct : String → Rec) (C : Nat) (hC : 0 < C)
    (l₁ l₂ : List Tup) (hperm : List.Perm l₁ l₂) :
    ((groupRuns (rec_sorted_gen C l₁)).map Prod.fst
      = (groupRuns (rec_sorted_gen C l₂)).map Prod.fst) ∧
    (∀ k, (rec_sorted_gen C l₁).filter (keyFilt k) = l₁.filter (keyFilt k)) ∧
    ((∀ k, l₁.filter (keyFilt k) = l₂.filter (keyFilt k)) →
      do_convert construct (rec_sorted_gen C l₁)
        = do_convert construct (rec_sorted_gen C l₂)) := by
  have hs₁ := rec_sorted_gen_sorted C l₁
  have hs₂ := rec_sorted_gen_sorted C l₂
  have hp : List.Perm (rec_sorted_gen C l₁) (rec_sorted_gen C l₂) :=
    ((rec_sorted_gen_perm C hC l₁).trans hperm).trans (rec_sorted_gen_perm C hC l₂).symm
  have hsm₁ : List.Sorted sLe ((rec_sorted_gen C l₁).map tKey) := by
    rw [List.Sorted, List.pairwise_map]
    exact hs₁
  have hsm₂ : List.Sorted sLe ((rec_sorted_gen C l₂).map tKey) := by
    rw [List.Sorted, List.pairwise_map]
    exact hs₂
  have hkeys : (rec_sorted_gen C l₁).map tKey = (rec_sorted_gen C l₂).map tKey :=
    List.eq_of_perm_of_sorted (hp.map tKey) hsm₁ hsm₂
  refine ⟨?_, fun k => rec_sorted_gen_filter C hC l₁ k, ?_⟩
  · rw [groupRuns_keys, groupRuns_keys, hkeys]
  · intro hf
    have heq : rec_sorted_gen C l₁ = rec_sorted_gen C l₂ := by
      apply sorted_eq_of_filters_eq _ _ hs₁ hs₂
      intro k
      rw [rec_sorted_gen_filter C hC l₁ k, rec_sorted_gen_filter C hC l₂ k]
      exact hf k
    rw [heq]

theorem c6_witness :
    0 < 2 ∧
    List.Perm [(("a" : String), STORE, "f", Val.int 1), (("b" : String), STORE, "g", Val.int 2)]
      [(("b" : String), STORE, "g", Val.int 2), (("a" : String), STORE, "f", Val.int 1)] ∧
    (((groupRuns (rec_sorted_gen 2
        [(("a" : String), STORE, "f", Val.int 1),
         (("b" : String), STORE, "g", Val.int 2)])).map Prod.fst
      = (groupRuns (rec_sorted_gen 2
        [(("b" : String), STORE, "g", Val.int 2),
         (("a" : String), STORE, "f", Val.int 1)])).map Prod.fst) ∧
     (∀ k, (rec_sorted_gen 2
        [(("a" : String), STORE, "f", Val.int 1),
         (("b" : String), STORE, "g", Val.int 2)]).filter (keyFilt k)
       = ([(("a" : String), STORE, "f", Val.int 1),
           (("b" : String), STORE, "g", Val.int 2)]).filter (keyFilt k)) ∧
     ((∀ k, ([(("a" : String), STORE, "f", Val.int 1),
           (("b" : String), STORE, "g", Val.int 2)]).filter (keyFilt k)
         = ([(("b" : String), STORE, "g", Val.int 2),
             (("a" : String), STORE, "f", Val.int 1)]).filter (keyFilt k)) →
       do_convert construct_title (rec_sorted_gen 2
          [(("a" : String), STORE, "f", Val.int 1), (("b" : String), STORE, "g", Val.int 2)])
        = do_convert construct_title (rec_sorted_gen 2
          [(("b" : String), STORE, "g", Val.int 2), (("a" : String), STORE, "f", Val.int 1)]))) :=
  ⟨by decide, List.Perm.swap _ _ _,
   c6_amended_interleaving construct_title 2 (by decide) _ _ (List.Perm.swap _ _ _)⟩
